import Mathlib

/-!
Verification of the PE-structural core of the UPX executable packer
(`src/pefile.cpp`), as a shallow embedding in Lean.

Machine integers are modelled as `Nat` with explicit wrap-around
(`% 2^32`, `% 2^64`) where the C code computes in `unsigned` /
`upx_uint64_t`.  Byte buffers are modelled either as `List Nat`
(byte lists) or as functions `Nat → Nat` (byte memories), matching how
each piece of the source accesses them.  Fallible code returns `Except`.
-/

set_option maxHeartbeats 2000000

namespace UpxPe

/-! ### C unsigned arithmetic -/

/-- Modulus of 32-bit unsigned arithmetic. -/
def U32 : Nat := 4294967296

/-- Modulus of 64-bit unsigned arithmetic. -/
def U64 : Nat := 18446744073709551616

/-- 32-bit wrapping addition, as computed on C `unsigned` operands. -/
def add32 (a b : Nat) : Nat := (a + b) % U32

/-- 32-bit wrapping subtraction `a - b` (for `a < 2^32`). -/
def sub32 (a b : Nat) : Nat := (a + U32 - b % U32) % U32

theorem add32_eq_of_lt {a b : Nat} (h : a + b < U32) : add32 a b = a + b :=
  Nat.mod_eq_of_lt h

theorem sub32_eq_of_le {a b : Nat} (hb : b ≤ a) (ha : a < U32) : sub32 a b = a - b := by
  unfold sub32 U32 at *
  rw [Nat.mod_eq_of_lt (a := b) (by omega),
      show a + 4294967296 - b = 4294967296 + (a - b) by omega,
      Nat.add_mod_left]
  exact Nat.mod_eq_of_lt (by omega)

/-! ### `PeFile::Interval`

An interval collection is a list of `(start, len)` pairs over a base
buffer (`struct interval` in `pefile.h`).  `flatten` sorts the pairs with
the comparator `Interval::compare` and then coalesces overlapping or
touching runs in place. -/

/-- One `(start, len)` pair as stored by `PeFile::Interval`. -/
structure Iv where
  start : Nat
  len : Nat
deriving DecidableEq

namespace Interval

/-- `PeFile::Interval::compare`, the qsort comparator: ascending by
`start`; on equal `start` the interval with the larger `len` sorts
first. -/
def compare (i1 i2 : Iv) : Int :=
  if i1.start < i2.start then -1
  else if i2.start < i1.start then 1
  else if i1.len < i2.len then 1
  else if i2.len < i1.len then -1
  else 0

/-- The comparator as the "sorts not after" relation used by the sort. -/
def le (a b : Iv) : Prop := compare a b ≤ 0

instance : DecidableRel le := fun a b =>
  inferInstanceAs (Decidable (compare a b ≤ 0))

theorem compare_le_iff (a b : Iv) :
    compare a b ≤ 0 ↔ a.start < b.start ∨ (a.start = b.start ∧ b.len ≤ a.len) := by
  unfold compare
  split
  · simp; omega
  · split
    · simp; omega
    · split
      · simp; omega
      · split <;> simp <;> omega

theorem le_iff (a b : Iv) :
    le a b ↔ a.start < b.start ∨ (a.start = b.start ∧ b.len ≤ a.len) :=
  compare_le_iff a b

instance : IsTotal Iv le :=
  ⟨fun a b => by rw [le_iff, le_iff]; omega⟩

instance : IsTrans Iv le :=
  ⟨fun a b c hab hbc => by rw [le_iff] at *; omega⟩

/-- The coalescing loop of `PeFile::Interval::flatten`, with `a` the
interval currently being widened (`ivarr[ic]`): it absorbs the following
intervals while `ivarr[ic].start + ivarr[ic].len >= ivarr[jc].start`
(32-bit unsigned arithmetic), widening `len` whenever the absorbed
interval reaches further; absorbed entries are dropped (the `memmove`). -/
def coalesceFrom (a : Iv) : List Iv → List Iv
  | [] => [a]
  | b :: rest =>
    if b.start ≤ add32 a.start a.len then
      coalesceFrom
        { start := a.start,
          len := if add32 a.start a.len < add32 b.start b.len
                 then sub32 (add32 b.start b.len) a.start
                 else a.len } rest
    else a :: coalesceFrom b rest

/-- The in-place coalescing pass over the sorted interval array. -/
def coalesce : List Iv → List Iv
  | [] => []
  | a :: rest => coalesceFrom a rest

/-- `PeFile::Interval::flatten`: return unchanged when empty, otherwise
sort with `Interval::compare` and coalesce. -/
def flatten (l : List Iv) : List Iv :=
  if l.isEmpty then l
  else coalesce (l.insertionSort le)

/-- An interval whose 32-bit end offset does not wrap around. -/
def NoWrap (iv : Iv) : Prop := iv.start + iv.len < U32

instance : DecidablePred NoWrap := fun iv =>
  inferInstanceAs (Decidable (iv.start + iv.len < U32))

/-- Behaviour of the coalescing loop on a sorted list of intervals whose
ends do not wrap: the output has non-wrapping ends, consecutive entries
satisfy `start + len < next start`, and the first output interval starts
where the first input interval does. -/
theorem coalesceFrom_spec :
    ∀ (rest : List Iv) (a : Iv), (a :: rest).Pairwise le →
    (∀ iv ∈ a :: rest, NoWrap iv) →
    (∀ iv ∈ coalesceFrom a rest, NoWrap iv) ∧
    List.Chain' (fun x y => x.start + x.len < y.start) (coalesceFrom a rest) ∧
    (coalesceFrom a rest).head?.map Iv.start = some a.start
  | [], a => by
    intro _ hw
    refine ⟨?_, by simp [coalesceFrom], by simp [coalesceFrom]⟩
    intro iv hiv
    simp [coalesceFrom] at hiv
    exact hiv ▸ hw a (by simp)
  | b :: rest, a => by
    intro hp hw
    have hwa : NoWrap a := hw a (by simp)
    have hwb : NoWrap b := hw b (by simp)
    have hA : add32 a.start a.len = a.start + a.len := add32_eq_of_lt hwa
    have hB : add32 b.start b.len = b.start + b.len := add32_eq_of_lt hwb
    have hab : le a b := (List.pairwise_cons.mp hp).1 b (by simp)
    have hab' := (le_iff a b).mp hab
    by_cases hcond : b.start ≤ add32 a.start a.len
    · -- absorb `b` into the running interval
      set a' : Iv :=
        { start := a.start,
          len := if add32 a.start a.len < add32 b.start b.len
                 then sub32 (add32 b.start b.len) a.start
                 else a.len } with ha'
      have hstep : coalesceFrom a (b :: rest) = coalesceFrom a' rest := by
        rw [coalesceFrom, if_pos hcond]
      have hale : a.start ≤ b.start := by omega
      have hsub : sub32 (add32 b.start b.len) a.start = b.start + b.len - a.start := by
        rw [hB]; exact sub32_eq_of_le (by omega) hwb
      have hwa' : NoWrap a' := by
        simp only [ha', NoWrap]
        split <;> (unfold NoWrap U32 at *; omega)
      have hp' : (a' :: rest).Pairwise le := by
        rcases List.pairwise_cons.mp hp with ⟨h1, h2⟩
        rcases List.pairwise_cons.mp h2 with ⟨h3, h4⟩
        refine List.pairwise_cons.mpr ⟨?_, h4⟩
        intro c hc
        have hac := (le_iff a c).mp (h1 c (by simp [hc]))
        have hbc := (le_iff b c).mp (h3 c hc)
        refine (le_iff a' c).mpr ?_
        simp only [ha']
        rcases hac with h | ⟨he, hl⟩
        · left; exact h
        · right
          refine ⟨he, ?_⟩
          rcases hbc with h' | ⟨he', hl'⟩
          · -- b.start < c.start = a.start ≤ b.start: impossible
            exfalso; omega
          · -- all three starts are equal
            split <;> omega
      have hw' : ∀ iv ∈ a' :: rest, NoWrap iv := by
        intro iv hiv
        rcases List.mem_cons.mp hiv with h | h
        · exact h ▸ hwa'
        · exact hw iv (by simp [List.mem_cons]; tauto)
      have ih := coalesceFrom_spec rest a' hp' hw'
      refine ⟨?_, ?_, ?_⟩
      · rw [hstep]; exact ih.1
      · rw [hstep]; exact ih.2.1
      · rw [hstep, ih.2.2]
    · -- keep the running interval, continue from `b`
      have hstep : coalesceFrom a (b :: rest) = a :: coalesceFrom b rest := by
        rw [coalesceFrom, if_neg hcond]
      rcases List.pairwise_cons.mp hp with ⟨_, h2⟩
      have hw2 : ∀ iv ∈ b :: rest, NoWrap iv := by
        intro iv hiv; exact hw iv (by simp [List.mem_cons] at hiv ⊢; tauto)
      have ih := coalesceFrom_spec rest b h2 hw2
      have hlt : a.start + a.len < b.start := by rw [hA] at hcond; omega
      refine ⟨?_, ?_, ?_⟩
      · rw [hstep]
        intro iv hiv
        rcases List.mem_cons.mp hiv with h | h
        · exact h ▸ hwa
        · exact ih.1 iv h
      · rw [hstep]
        refine List.chain'_cons'.mpr ⟨?_, ih.2.1⟩
        intro y hy
        have hy' : Iv.start y = b.start := by
          have := ih.2.2
          rw [hy] at this; simpa using this
        omega
      · rw [hstep]; rfl

/-- On a list that is already coalesced (no wrap-around, consecutive
ends strictly below the next start) the coalescing loop is the
identity. -/
theorem coalesceFrom_of_flat :
    ∀ (rest : List Iv) (a : Iv), (∀ iv ∈ a :: rest, NoWrap iv) →
    List.Chain' (fun x y => x.start + x.len < y.start) (a :: rest) →
    coalesceFrom a rest = a :: rest
  | [], a => by intro _ _; rfl
  | b :: rest, a => by
    intro hw hc
    have hwa : NoWrap a := hw a (by simp)
    have hA : add32 a.start a.len = a.start + a.len := add32_eq_of_lt hwa
    rcases List.chain'_cons.mp hc with ⟨h1, h2⟩
    have hcond : ¬ b.start ≤ add32 a.start a.len := by rw [hA]; omega
    rw [coalesceFrom, if_neg hcond,
        coalesceFrom_of_flat rest b
          (fun iv hiv => hw iv (by simp [List.mem_cons] at hiv ⊢; tauto)) h2]

/-- A coalesced list (no wrap-around, strictly disjoint) is sorted for
the `Interval::compare` comparator. -/
theorem flat_pairwise {l : List Iv} (_hw : ∀ iv ∈ l, NoWrap iv)
    (hc : List.Chain' (fun x y => x.start + x.len < y.start) l) :
    l.Pairwise le := by
  have hlt : List.Chain' (fun x y : Iv => x.start < y.start) l :=
    hc.imp fun a b h => by omega
  haveI : IsTrans Iv fun x y : Iv => x.start < y.start :=
    ⟨fun a b c hab hbc => Nat.lt_trans hab hbc⟩
  have : l.Pairwise fun x y : Iv => x.start < y.start := by
    rw [← List.chain'_iff_pairwise]; exact hlt
  exact this.imp fun {a b} h => by rw [le_iff]; omega

theorem flatten_of_flat {l : List Iv} (hw : ∀ iv ∈ l, NoWrap iv)
    (hc : List.Chain' (fun x y => x.start + x.len < y.start) l) :
    flatten l = l := by
  unfold flatten
  split
  · rfl
  · rw [List.Sorted.insertionSort_eq (flat_pairwise hw hc)]
    cases l with
    | nil => rfl
    | cons a rest => exact coalesceFrom_of_flat rest a hw hc

end Interval

open Interval in
/-- C3: for every interval collection whose 32-bit end offsets do not
overflow, after `flatten` the stored ranges are sorted by start and
strictly disjoint (`start[i] + len[i] < start[i+1]` for every
consecutive pair), `flatten` is idempotent, and the underlying sort
comparator breaks ties on equal `start` by placing the longer range
first. -/
theorem interval_flatten_sorted_disjoint_idempotent (l : List Iv)
    (h : ∀ iv ∈ l, Interval.NoWrap iv) :
    List.Chain' (fun x y : Iv => x.start + x.len < y.start) (flatten l) ∧
    List.Chain' (fun x y : Iv => x.start < y.start) (flatten l) ∧
    flatten (flatten l) = flatten l ∧
    (∀ a b : Iv, a.start = b.start → (Interval.compare a b < 0 ↔ b.len < a.len)) := by
  have hcmp : ∀ a b : Iv, a.start = b.start → (Interval.compare a b < 0 ↔ b.len < a.len) := by
    intro a b hab
    unfold Interval.compare
    split
    · omega
    · split
      · omega
      · split
        · simp; omega
        · split <;> simp <;> omega
  by_cases hnil : l.isEmpty
  · have : l = [] := by cases l <;> simp_all
    subst this
    refine ⟨by simp [flatten], by simp [flatten], by simp [flatten, coalesce], hcmp⟩
  · have hfl : flatten l = coalesce (l.insertionSort le) := by
      unfold flatten; rw [if_neg hnil]
    have hsorted : (l.insertionSort le).Pairwise le :=
      List.sorted_insertionSort le l
    have hw : ∀ iv ∈ l.insertionSort le, NoWrap iv := by
      intro iv hiv
      exact h iv ((List.mem_insertionSort le).mp hiv)
    have hchain : List.Chain' (fun x y : Iv => x.start + x.len < y.start) (flatten l) ∧
        (∀ iv ∈ flatten l, NoWrap iv) := by
      rw [hfl]
      cases hs : l.insertionSort le with
      | nil => exact ⟨by simp [coalesce], by simp [coalesce]⟩
      | cons a rest =>
        have hspec := coalesceFrom_spec rest a (hs ▸ hsorted) (hs ▸ hw)
        exact ⟨hspec.2.1, hspec.1⟩
    refine ⟨hchain.1, hchain.1.imp fun a b hab => by omega, ?_, hcmp⟩
    exact flatten_of_flat hchain.2 hchain.1

/-- Concrete evaluation of `interval_flatten_sorted_disjoint_idempotent`:
the interval collection `[(12,2), (0,3), (2,4), (0,1), (20,5)]` flattens
to `[(0,6), (12,2), (20,5)]`, which is sorted, strictly disjoint and a
fixed point of `flatten`. -/
theorem interval_flatten_witness :
    (∀ iv ∈ [Iv.mk 12 2, Iv.mk 0 3, Iv.mk 2 4, Iv.mk 0 1, Iv.mk 20 5], Interval.NoWrap iv) ∧
    (Interval.flatten [Iv.mk 12 2, Iv.mk 0 3, Iv.mk 2 4, Iv.mk 0 1, Iv.mk 20 5] =
      [Iv.mk 0 6, Iv.mk 12 2, Iv.mk 20 5]) ∧
    List.Chain' (fun x y : Iv => x.start + x.len < y.start)
      (Interval.flatten [Iv.mk 12 2, Iv.mk 0 3, Iv.mk 2 4, Iv.mk 0 1, Iv.mk 20 5]) := by
  have h : ∀ iv ∈ [Iv.mk 12 2, Iv.mk 0 3, Iv.mk 2 4, Iv.mk 0 1, Iv.mk 20 5],
      Interval.NoWrap iv := by decide
  refine ⟨h, by decide, ?_⟩
  exact (interval_flatten_sorted_disjoint_idempotent _ h).1

/-! ### `PeFile::Reloc` — reading base-relocation blocks -/

/-- Read a little-endian 32-bit value from a byte list (`get_le32`). -/
def le32At (buf : List Nat) (i : Nat) : Nat :=
  buf.getD i 0 + 256 * (buf.getD (i + 1) 0 +
    256 * (buf.getD (i + 2) 0 + 256 * buf.getD (i + 3) 0))

/-- Result of `PeFile::Reloc::readFromRelocationBlock`: end-of-stream,
one of the `throwCantPack` failures, or a block successfully selected
together with its 16-bit entry count. -/
inductive RelocReadResult where
  | eof
  | errRelocsOverflow
  | errBadSob (sob : Nat)
  | errOverflowSob (sob : Nat)
  | errOddSob (sob : Nat)
  | ok (count : Nat)
deriving DecidableEq

/-- `PeFile::Reloc::readFromRelocationBlock` over the relocation buffer
`buf` (the bytes `start[0 .. start_size_in_bytes)`), positioned at byte
offset `off`; `force` is `opt->force`. -/
def readFromRelocationBlock (force : Bool) (buf : List Nat) (off : Nat) : RelocReadResult :=
  if off ≥ buf.length then .eof
  else if buf.length - off < 8 then .errRelocsOverflow
  else
    let sob := le32At buf (off + 4)
    if sob = 0 ∧ off = 0 ∧ buf.length = 8 then .eof
    else if force = false ∧ sob < 8 then .errBadSob sob
    else if force = false ∧ buf.length - off < sob then .errOverflowSob sob
    else if force = false ∧ sob % 2 = 1 then .errOddSob sob
    else .ok (if sob < 8 then 0 else (sob - 8) / 2)

/-- C4: without `--force`, a relocation block whose `size_of_block` is
below 8, larger than the remaining buffer, or odd raises the matching
`CantPack` error ("bad" / "overflow" / "odd" `reloc size_of_block`);
with `--force` such blocks are accepted; and a single block with
`size_of_block = 0` at offset 0 of an 8-byte buffer is treated as
end-of-stream rather than an error. -/
theorem reloc_read_block_validation (buf : List Nat) (off : Nat)
    (hoff : off % 2 = 0) (hlt : off < buf.length) (h8 : 8 ≤ buf.length - off)
    (hns : ¬(le32At buf (off + 4) = 0 ∧ off = 0 ∧ buf.length = 8)) :
    (le32At buf (off + 4) < 8 →
      readFromRelocationBlock false buf off = .errBadSob (le32At buf (off + 4))) ∧
    (8 ≤ le32At buf (off + 4) → buf.length - off < le32At buf (off + 4) →
      readFromRelocationBlock false buf off = .errOverflowSob (le32At buf (off + 4))) ∧
    (8 ≤ le32At buf (off + 4) → le32At buf (off + 4) ≤ buf.length - off →
      le32At buf (off + 4) % 2 = 1 →
      readFromRelocationBlock false buf off = .errOddSob (le32At buf (off + 4))) ∧
    (readFromRelocationBlock true buf off =
      .ok (if le32At buf (off + 4) < 8 then 0 else (le32At buf (off + 4) - 8) / 2)) ∧
    (∀ buf2 : List Nat, buf2.length = 8 → le32At buf2 4 = 0 → ∀ f : Bool,
      readFromRelocationBlock f buf2 0 = .eof) := by
  refine ⟨?_, ?_, ?_, ?_, ?_⟩
  · intro hsob
    unfold readFromRelocationBlock
    rw [if_neg (by omega), if_neg (by omega)]
    simp only []
    rw [if_neg hns]
    simp [hsob]
  · intro hsob hrem
    unfold readFromRelocationBlock
    rw [if_neg (by omega), if_neg (by omega)]
    simp only []
    rw [if_neg hns]
    simp [show ¬ le32At buf (off + 4) < 8 by omega, hrem]
  · intro hsob hrem hodd
    unfold readFromRelocationBlock
    rw [if_neg (by omega), if_neg (by omega)]
    simp only []
    rw [if_neg hns]
    simp [show ¬ le32At buf (off + 4) < 8 by omega,
          show ¬ buf.length - off < le32At buf (off + 4) by omega, hodd]
  · unfold readFromRelocationBlock
    rw [if_neg (by omega), if_neg (by omega)]
    simp only []
    rw [if_neg hns]
    simp
  · intro buf2 hlen hz f
    unfold readFromRelocationBlock
    rw [if_neg (by omega), if_neg (by omega), if_pos ⟨hz, rfl, hlen⟩]

/-- Concrete evaluation of `reloc_read_block_validation`: a 12-byte
relocation buffer whose single block claims `size_of_block = 7` is
rejected without `--force` and accepted with it, and the 8-byte
zero-`size_of_block` buffer is end-of-stream. -/
theorem reloc_read_block_validation_witness :
    readFromRelocationBlock false [0, 16, 0, 0, 7, 0, 0, 0, 1, 2, 3, 4] 0 =
      .errBadSob 7 ∧
    readFromRelocationBlock true [0, 16, 0, 0, 7, 0, 0, 0, 1, 2, 3, 4] 0 = .ok 0 ∧
    readFromRelocationBlock false [0, 16, 0, 0, 0, 0, 0, 0] 0 = .eof := by
  have h := reloc_read_block_validation [0, 16, 0, 0, 7, 0, 0, 0, 1, 2, 3, 4] 0
    (by decide) (by decide) (by decide) (by decide)
  refine ⟨?_, ?_, ?_⟩
  · have h1 := h.1 (by decide)
    simpa using h1
  · have h4 := h.2.2.2.1
    simpa using h4
  · exact h.2.2.2.2 [0, 16, 0, 0, 0, 0, 0, 0] (by decide) (by decide) false

/-! ### `PeFile::processTls2` — pass-2 TLS data-area relocations -/

/-- The inputs of the data-area relocation loop in `PeFile::processTls2`:
`M` is the pointer modulus (`2^32` for `LE32`, `2^64` for `LE64`),
`sizeofTls` is `sizeof(tls)`, and `datastart`, `dataend`, `imagebase`,
`newaddr` come from the cloned TLS descriptor and the final layout. -/
structure Tls2Ctx where
  M : Nat
  sizeofTls : Nat
  datastart : Nat
  dataend : Nat
  imagebase : Nat
  newaddr : Nat
deriving DecidableEq

/-- One iteration body of the data-area loop of `PeFile::processTls2`
for the recorded entry `e` (`e.start` the relocation RVA, `e.len` its
type, as stored by `processTls1`): reads the in-place pointer, rewrites
it when it points into `[datastart, dataend)` and emits one entry for
the new relocation stream.  Returns the optional `(offset, value)`
in-place write and the emitted `(pos, type)` pair. -/
def tls2Step (c : Tls2Ctx) (mem : Nat → Nat) (e : Iv) :
    Option (Nat × Nat) × (Nat × Nat) :=
  let off := e.start - (c.datastart - c.imagebase) + c.sizeofTls
  let kc := mem off
  if kc < c.dataend ∧ c.datastart ≤ kc then
    let kc2 := (kc + c.newaddr + c.sizeofTls + c.M - c.datastart % c.M) % c.M
    (some (off, (kc2 + c.imagebase) % c.M), (kc2, e.len))
  else
    (none, ((kc + c.M - c.imagebase % c.M) % c.M, e.len))

/-- The data-area relocation loop of `PeFile::processTls2`
(`for (ic = 0; ic < iv->ivnum; ic += 4)`): the loop index advances by 4,
so of each four consecutive recorded entries only the first is visited.
`mem o` is the pointer-sized value read from the cloned TLS side buffer
at byte offset `o`.  Returns the in-place pointer writes and the entries
emitted into the new relocation stream. -/
def tls2DataLoop (c : Tls2Ctx) (mem : Nat → Nat) :
    List Iv → List (Nat × Nat) × List (Nat × Nat)
  | [] => ([], [])
  | e :: _ :: _ :: _ :: rest =>
    let s := tls2Step c mem e
    let r := tls2DataLoop c mem rest
    (s.1.toList ++ r.1, s.2 :: r.2)
  | e :: _ =>
    let s := tls2Step c mem e
    (s.1.toList, [s.2])

/-- The failing input for C2: TLS data at VA 4198400..4198464
(imagebase 4194304), relocated to `newaddr` 8192, with two recorded
pass-1 relocations of type 3 at RVAs 4100 and 4108. -/
def tls2BugCtx : Tls2Ctx :=
  { M := U32, sizeofTls := 24, datastart := 4198400, dataend := 4198464,
    imagebase := 4194304, newaddr := 8192 }

/-- Cloned TLS side buffer for the failing input: the two in-place
pointers (at byte offsets 28 and 36) point into the TLS data area. -/
def tls2BugMem : Nat → Nat := fun o =>
  if o = 28 then 4198408 else if o = 36 then 4198416 else 0

/-- The two relocations recorded by `processTls1` for the failing
input. -/
def tls2BugIv : List Iv := [Iv.mk 4100 3, Iv.mk 4108 3]

/-- C2 (code bug): on an input with two recorded TLS-data relocations,
the pass-2 loop emits only one entry into the new relocation stream and
rewrites only the first cloned pointer — the loop advances its index by
4, skipping the other recorded entries, although both point into the
data area and the claim (and the pass-1 bookkeeping) require every
recorded entry to be processed. -/
theorem processTls2_skips_recorded_relocations :
    (tls2DataLoop tls2BugCtx tls2BugMem tls2BugIv).2.length = 1 ∧
    (tls2DataLoop tls2BugCtx tls2BugMem tls2BugIv).1 = [(28, 4202528)] ∧
    ((tls2DataLoop tls2BugCtx tls2BugMem tls2BugIv).1.all fun w => w.1 ≠ 36) := by
  refine ⟨by decide, by decide, by decide⟩

/-! ### `PeFile::processImports0` — dll sort order (`UDll::compare`) -/

/-- Lower-case an ASCII byte, as C `strcasecmp` effectively does. -/
def lowerByte (b : Nat) : Nat := if 65 ≤ b ∧ b ≤ 90 then b + 32 else b

/-- Sign of C `strcmp` on NUL-free byte strings. -/
def cmpBytes : List Nat → List Nat → Int
  | [], [] => 0
  | [], _ :: _ => -1
  | _ :: _, [] => 1
  | a :: as, b :: bs => if a < b then -1 else if b < a then 1 else cmpBytes as bs

/-- Sign of C `strcasecmp` on NUL-free byte strings. -/
def strcasecmpSign (a b : List Nat) : Int := cmpBytes (a.map lowerByte) (b.map lowerByte)

/-- One entry of the `UDll` array collected by `PeFile::processImports0`:
`name` the dll-name bytes, `shname` the shortest name imported from the
dll (absent when every import is by ordinal), `ordinal` the last
imported ordinal (0 when none), `lookupNonzero` whether the first
lookup-table entry is non-zero (`*lookupt != 0`), `original_position`
the import-descriptor index, and `isk32` whether the name equals the
kernel dll. -/
structure UDll where
  name : List Nat
  shname : Option (List Nat)
  ordinal : Nat
  lookupNonzero : Bool
  original_position : Nat
  isk32 : Bool
deriving DecidableEq

/-- `PeFile::processImports0::UDll::compare` (result sign). -/
def UDll.compare (a b : UDll) : Int :=
  if a.original_position = b.original_position then 0
  else if a.isk32 ≠ b.isk32 then (if a.isk32 then -1 else 1)
  else if a.lookupNonzero ≠ b.lookupNonzero then (if a.lookupNonzero then -1 else 1)
  else if strcasecmpSign a.name b.name ≠ 0 then strcasecmpSign a.name b.name
  else if decide (a.ordinal ≠ 0) ≠ decide (b.ordinal ≠ 0) then
    (if a.ordinal ≠ 0 then -1 else 1)
  else
    match a.shname, b.shname with
    | some sa, some sb =>
      if ((sa.length : Int) - sb.length) ≠ 0 then (sa.length : Int) - sb.length
      else if cmpBytes sa sb ≠ 0 then cmpBytes sa sb
      else if a.original_position < b.original_position then -1 else 1
    | some _, none => -1
    | none, some _ => 1
    | none, none => if a.original_position < b.original_position then -1 else 1

/-- First-non-zero-wins combination of comparison keys. -/
def lexStep (c1 c2 : Int) : Int := if c1 ≠ 0 then c1 else c2

theorem ite_neg_one_ne_zero (c : Prop) [Decidable c] :
    (if c then (-1 : Int) else 1) ≠ 0 := by split <;> simp

theorem ite_one_ne_zero (c : Prop) [Decidable c] :
    (if c then (1 : Int) else -1) ≠ 0 := by split <;> simp

/-- Comparison key from a boolean property; `true` sorts first. -/
def boolKey (x y : Bool) : Int := if x = y then 0 else if x then -1 else 1

/-- Short-name comparison key as used by the claim: with two
short-names, the shorter one first. -/
def claimedShnameKey : Option (List Nat) → Option (List Nat) → Int
  | some sa, some sb => (sa.length : Int) - sb.length
  | _, _ => 0

/-- The dll sort order exactly as the claim words it: the kernel dll
first; non-ordinal-style dlls before ordinal-style ones; then
case-insensitive by name; then dlls with an ordinal before those
without; then the shorter short-name; then the original descriptor
index. -/
def claimedDllCompare (a b : UDll) : Int :=
  lexStep (boolKey a.isk32 b.isk32)
    (lexStep (boolKey (decide (a.ordinal = 0)) (decide (b.ordinal = 0)))
      (lexStep (strcasecmpSign a.name b.name)
        (lexStep (boolKey (decide (a.ordinal ≠ 0)) (decide (b.ordinal ≠ 0)))
          (lexStep (claimedShnameKey a.shname b.shname)
            (if a.original_position < b.original_position then -1
             else if b.original_position < a.original_position then 1 else 0)))))

/-- C7 counterexample: dll `a` (`aaa.dll`, no imports resolved yet, not
ordinal-style, empty lookup entry) against dll `b` (`zzz.dll`, imports
by ordinal, non-zero lookup entry).  The claimed key order puts the
non-ordinal-style `a` first (and the name order agrees), but the code
compares `*lookupt != 0` at the second key and puts `b` first. -/
theorem udll_compare_claim_counterexample :
    claimedDllCompare
        ⟨[97, 97, 97, 46, 100, 108, 108], none, 0, false, 0, false⟩
        ⟨[122, 122, 122, 46, 100, 108, 108], some [102], 5, true, 1, false⟩ = -1 ∧
    UDll.compare
        ⟨[97, 97, 97, 46, 100, 108, 108], none, 0, false, 0, false⟩
        ⟨[122, 122, 122, 46, 100, 108, 108], some [102], 5, true, 1, false⟩ = 1 := by
  refine ⟨by decide, by decide⟩

/-- Short-name key of the comparator as implemented: with two
short-names the shorter first, ties by byte comparison; a dll with a
short-name before one without. -/
def amendedShnameKey : Option (List Nat) → Option (List Nat) → Int
  | some sa, some sb => lexStep ((sa.length : Int) - sb.length) (cmpBytes sa sb)
  | some _, none => -1
  | none, some _ => 1
  | none, none => 0

/-- The amended dll sort order: identical descriptor indices compare
equal; then the kernel dll first; then dlls whose first lookup-table
entry is non-zero before those whose first entry is zero; then
case-insensitive by name; then dlls with an ordinal before those
without; then the shorter short-name with ties broken by byte
comparison, a present short-name before an absent one; finally the
original descriptor index. -/
def amendedDllCompare (a b : UDll) : Int :=
  if a.original_position = b.original_position then 0
  else
    lexStep (boolKey a.isk32 b.isk32)
      (lexStep (boolKey a.lookupNonzero b.lookupNonzero)
        (lexStep (strcasecmpSign a.name b.name)
          (lexStep (boolKey (decide (a.ordinal ≠ 0)) (decide (b.ordinal ≠ 0)))
            (lexStep (amendedShnameKey a.shname b.shname)
              (if a.original_position < b.original_position then -1 else 1)))))

/-- C7 (amended): `UDll::compare` realises exactly the amended priority
of keys. -/
theorem udll_compare_amended_order (a b : UDll) :
    UDll.compare a b = amendedDllCompare a b := by
  by_cases hpos : a.original_position = b.original_position
  · simp [UDll.compare, amendedDllCompare, hpos]
  · by_cases h1 : a.isk32 = b.isk32
    · by_cases h2 : a.lookupNonzero = b.lookupNonzero
      · by_cases h3 : strcasecmpSign a.name b.name = 0
        · by_cases h4 : decide (a.ordinal ≠ 0) = decide (b.ordinal ≠ 0)
          · have h4' : (a.ordinal ≠ 0) ↔ (b.ordinal ≠ 0) := by
              constructor <;> intro h <;>
                [skip; skip] <;> simp_all
            cases ha : a.shname with
            | none =>
              cases hb : b.shname with
              | none =>
                simp [UDll.compare, amendedDllCompare, lexStep, boolKey,
                      amendedShnameKey, hpos, h1, h2, h3, h4, ha, hb]
              | some sb =>
                simp [UDll.compare, amendedDllCompare, lexStep, boolKey,
                      amendedShnameKey, hpos, h1, h2, h3, h4, ha, hb]
            | some sa =>
              cases hb : b.shname with
              | none =>
                simp [UDll.compare, amendedDllCompare, lexStep, boolKey,
                      amendedShnameKey, hpos, h1, h2, h3, h4, ha, hb]
              | some sb =>
                by_cases h5 : ((sa.length : Int) - sb.length) = 0
                · by_cases h6 : cmpBytes sa sb = 0
                  · simp [UDll.compare, amendedDllCompare, lexStep, boolKey,
                          amendedShnameKey, hpos, h1, h2, h3, h4, ha, hb, h5, h6]
                  · simp [UDll.compare, amendedDllCompare, lexStep, boolKey,
                          amendedShnameKey, hpos, h1, h2, h3, h4, ha, hb, h5, h6]
                · simp [UDll.compare, amendedDllCompare, lexStep, boolKey,
                        amendedShnameKey, hpos, h1, h2, h3, h4, ha, hb, h5]
          · have h4' : ¬(a.ordinal = 0 ↔ b.ordinal = 0) := by
              intro hiff
              exact h4 (by simp [decide_eq_decide]; tauto)
            simp [UDll.compare, amendedDllCompare, lexStep, boolKey,
                  hpos, h1, h2, h3, h4, h4', ite_one_ne_zero, ite_neg_one_ne_zero]
        · simp [UDll.compare, amendedDllCompare, lexStep, boolKey,
                hpos, h1, h2, h3]
      · simp [UDll.compare, amendedDllCompare, lexStep, boolKey,
              hpos, h1, h2, ite_one_ne_zero, ite_neg_one_ne_zero]
    · simp [UDll.compare, amendedDllCompare, lexStep, boolKey,
            hpos, h1, ite_one_ne_zero, ite_neg_one_ne_zero]

/-! ### Byte memories

The virtual image `ibuf` is modelled as a function from byte offset to
byte value. -/

/-- Zero `size` bytes starting at `addr` (`memset(base + addr, 0, size)`,
`ibuf.fill(addr, size, FILLVAL)` with `FILLVAL = 0`). -/
def zeroRange (m : Nat → Nat) (addr size : Nat) : Nat → Nat :=
  fun a => if addr ≤ a ∧ a < addr + size then 0 else m a

/-- `PeFile::Interval::clear`: zero every stored interval in the base
buffer. -/
def clearIntervals (m : Nat → Nat) (ivs : List Iv) : Nat → Nat :=
  ivs.foldl (fun acc iv => zeroRange acc iv.start iv.len) m

/-- Write a little-endian 32-bit value at `addr` (`set_le32`). -/
def writeLe32 (m : Nat → Nat) (addr v : Nat) : Nat → Nat :=
  fun a =>
    if a = addr then v % 256
    else if a = addr + 1 then v / 256 % 256
    else if a = addr + 2 then v / 65536 % 256
    else if a = addr + 3 then v / 16777216 % 256
    else m a

/-- Read a little-endian 32-bit value at `addr` (`get_le32`). -/
def readLe32 (m : Nat → Nat) (addr : Nat) : Nat :=
  m addr + 256 * (m (addr + 1) + 256 * (m (addr + 2) + 256 * m (addr + 3)))

/-- Membership of a byte offset in one of the stored intervals. -/
def covered (ivs : List Iv) (a : Nat) : Prop :=
  ∃ iv ∈ ivs, iv.start ≤ a ∧ a < iv.start + iv.len

instance (ivs : List Iv) (a : Nat) : Decidable (covered ivs a) :=
  inferInstanceAs (Decidable (∃ iv ∈ ivs, _ ∧ _))

theorem clearIntervals_not_covered {ivs : List Iv} {a : Nat} (m : Nat → Nat)
    (h : ¬ covered ivs a) : clearIntervals m ivs a = m a := by
  induction ivs generalizing m with
  | nil => rfl
  | cons iv rest ih =>
    have h1 : ¬ covered rest a := fun ⟨iv0, h0, hc⟩ => h ⟨iv0, List.mem_cons_of_mem _ h0, hc⟩
    have h2 : ¬ (iv.start ≤ a ∧ a < iv.start + iv.len) := fun hc =>
      h ⟨iv, List.mem_cons_self _ _, hc⟩
    show clearIntervals (zeroRange m iv.start iv.len) rest a = m a
    rw [ih _ h1]
    simp only [zeroRange, if_neg h2]

theorem clearIntervals_zero {ivs : List Iv} {a : Nat} (m : Nat → Nat)
    (h : m a = 0) : clearIntervals m ivs a = 0 := by
  induction ivs generalizing m with
  | nil => exact h
  | cons iv rest ih =>
    show clearIntervals (zeroRange m iv.start iv.len) rest a = 0
    refine ih _ ?_
    simp only [zeroRange]
    split
    · rfl
    · exact h

theorem clearIntervals_covered {ivs : List Iv} {a : Nat} (m : Nat → Nat)
    (h : covered ivs a) : clearIntervals m ivs a = 0 := by
  induction ivs generalizing m with
  | nil => rcases h with ⟨iv, hiv, _⟩; cases hiv
  | cons iv rest ih =>
    rcases h with ⟨iv0, hiv0, hle, hlt⟩
    rcases List.mem_cons.mp hiv0 with h0 | h0
    · subst h0
      show clearIntervals (zeroRange m iv0.start iv0.len) rest a = 0
      exact clearIntervals_zero _ (by simp [zeroRange, hle, hlt])
    · exact ih _ ⟨iv0, h0, hle, hlt⟩

/-! ### `PeFile::processImports0` — final image rewriting -/

/-- Overwrite import descriptor `ic` as the non-contiguous branch of
`processImports0` does: `memset(im, FILLVAL, sizeof(*im))`, then store a
dll-name offset in the `dllname` field (descriptor byte offset 12). -/
def writeDesc (m : Nat → Nat) (descStart ic nameOff : Nat) : Nat → Nat :=
  writeLe32 (zeroRange m (descStart + 20 * ic) 20) (descStart + 20 * ic + 12) nameOff

/-- The descriptor rewrite loop of the non-contiguous branch, with
`offs` listing per (sorted) position the stored dll-name offset. -/
def writeDescs (descStart : Nat) : Nat → List Nat → (Nat → Nat) → (Nat → Nat)
  | _, [], m => m
  | ic, off :: rest, m => writeDescs descStart (ic + 1) rest (writeDesc m descStart ic off)

/-- The tail of `PeFile::processImports0` (pefile.cpp:1125-1159): flatten
the collected dll-name/imported-name intervals; when they form a single
interval, zero the IAT regions together with the descriptor array and
the lookup regions; otherwise emit the warning, overwrite each original
descriptor with only its dll-name offset and do not touch the IAT and
lookup regions.  The name regions are cleared in both branches.  Returns
the new image, the function result (start of the single names interval,
else 0) and whether the warning was emitted. -/
def processImports0Finish (image : Nat → Nat) (names iats lookups : List Iv)
    (descStart dllnum : Nat) (nameOffs : List Nat) : (Nat → Nat) × Nat × Bool :=
  let fnames := Interval.flatten names
  if 1 < fnames.length then
    let image1 := writeDescs descStart 0 nameOffs image
    let image2 := clearIntervals image1 fnames
    (image2, 0, true)
  else
    let iats2 := iats ++ [⟨descStart, 20 * dllnum⟩]
    let image1 := clearIntervals image iats2
    let image2 := clearIntervals image1 lookups
    let image3 := clearIntervals image2 fnames
    (image3, (match fnames with | [iv] => iv.start | _ => 0), false)

theorem writeDescs_outside (descStart : Nat) :
    ∀ (offs : List Nat) (ic : Nat) (m : Nat → Nat) (a : Nat),
    (a < descStart + 20 * ic ∨ descStart + 20 * (ic + offs.length) ≤ a) →
    writeDescs descStart ic offs m a = m a
  | [], _, _, _, _ => rfl
  | off :: rest, ic, m, a, h => by
    show writeDescs descStart (ic + 1) rest (writeDesc m descStart ic off) a = m a
    rw [writeDescs_outside descStart rest (ic + 1) _ a (by simp at h ⊢; omega)]
    simp only [writeDesc, writeLe32, zeroRange]
    simp only [List.length_cons] at h
    rw [if_neg (by omega), if_neg (by omega), if_neg (by omega), if_neg (by omega),
        if_neg (by omega)]

theorem writeDescs_field (descStart : Nat) :
    ∀ (offs : List Nat) (ic j : Nat) (m : Nat → Nat), j < offs.length →
    ∀ k : Nat, k < 4 →
    writeDescs descStart ic offs m (descStart + 20 * (ic + j) + 12 + k) =
      offs.getD j 0 / 256 ^ k % 256
  | [], _, j, _, hj, _, _ => by simp at hj
  | off :: rest, ic, 0, m, _, k, hk => by
    show writeDescs descStart (ic + 1) rest (writeDesc m descStart ic off) _ = _
    rw [writeDescs_outside descStart rest (ic + 1) _ _ (by left; omega)]
    simp only [writeDesc, writeLe32, List.getD_cons_zero]
    interval_cases k
    · rw [if_pos (by omega)]; simp [pow_zero]
    · rw [if_neg (by omega), if_pos (by omega)]; simp [pow_one]
    · rw [if_neg (by omega), if_neg (by omega), if_pos (by omega)]; norm_num
    · rw [if_neg (by omega), if_neg (by omega), if_neg (by omega), if_pos (by omega)]; norm_num
  | off :: rest, ic, j + 1, m, hj, k, hk => by
    show writeDescs descStart (ic + 1) rest (writeDesc m descStart ic off) _ = _
    have := writeDescs_field descStart rest (ic + 1) j (writeDesc m descStart ic off)
      (by simpa using hj) k hk
    rw [show ic + (j + 1) = ic + 1 + j by omega]
    rw [this]
    simp

theorem writeDescs_zero_byte (descStart : Nat) :
    ∀ (offs : List Nat) (ic j : Nat) (m : Nat → Nat), j < offs.length →
    ∀ k : Nat, k < 20 → (k < 12 ∨ 16 ≤ k) →
    writeDescs descStart ic offs m (descStart + 20 * (ic + j) + k) = 0
  | [], _, j, _, hj, _, _, _ => by simp at hj
  | off :: rest, ic, 0, m, _, k, hk, hk2 => by
    show writeDescs descStart (ic + 1) rest (writeDesc m descStart ic off) _ = _
    rw [writeDescs_outside descStart rest (ic + 1) _ _ (by left; omega)]
    simp only [writeDesc, writeLe32, zeroRange]
    rw [if_neg (by omega), if_neg (by omega), if_neg (by omega), if_neg (by omega),
        if_pos (by omega)]
  | off :: rest, ic, j + 1, m, hj, k, hk, hk2 => by
    show writeDescs descStart (ic + 1) rest (writeDesc m descStart ic off) _ = _
    have := writeDescs_zero_byte descStart rest (ic + 1) j (writeDesc m descStart ic off)
      (by simpa using hj) k hk hk2
    rw [show ic + (j + 1) = ic + 1 + j by omega]
    rw [this]

theorem readLe32_writeDescs (descStart : Nat) (offs : List Nat) (j : Nat)
    (m : Nat → Nat) (hj : j < offs.length) (hv : offs.getD j 0 < U32) :
    readLe32 (writeDescs descStart 0 offs m) (descStart + 20 * j + 12) =
      offs.getD j 0 := by
  have h0 := writeDescs_field descStart offs 0 j m (by simpa using hj) 0 (by omega)
  have h1 := writeDescs_field descStart offs 0 j m (by simpa using hj) 1 (by omega)
  have h2 := writeDescs_field descStart offs 0 j m (by simpa using hj) 2 (by omega)
  have h3 := writeDescs_field descStart offs 0 j m (by simpa using hj) 3 (by omega)
  simp only [Nat.zero_add, Nat.add_zero] at h0 h1 h2 h3
  unfold readLe32
  rw [h0, h1, h2, h3]
  unfold U32 at hv
  rw [show (256 : Nat) ^ 0 = 1 by norm_num, show (256 : Nat) ^ 1 = 256 by norm_num,
      show (256 : Nat) ^ 2 = 65536 by norm_num, show (256 : Nat) ^ 3 = 16777216 by norm_num,
      Nat.div_one]
  omega

/-- C8: in pass-1 import processing, when the flattened
dll-name/imported-name regions form exactly one interval, the IAT and
lookup-table regions and the descriptor array are zeroed in the image
and the start offset of the single names interval is returned, with no
warning; otherwise the "can't remove unneeded imports" warning is
emitted, the image is untouched outside the descriptor array and the
name regions (in particular the IAT and lookup regions are not zeroed),
each original import descriptor is overwritten with only its dll-name
offset, and 0 is returned. -/
theorem imports_finish_dichotomy (image : Nat → Nat) (names iats lookups : List Iv)
    (descStart dllnum : Nat) (nameOffs : List Nat)
    (hlen : nameOffs.length = dllnum)
    (hdisj : ∀ a, descStart ≤ a → a < descStart + 20 * dllnum →
      ¬ covered (Interval.flatten names) a)
    (hoffs : ∀ j, j < nameOffs.length → nameOffs.getD j 0 < U32) :
    (∀ iv0, Interval.flatten names = [iv0] →
      (processImports0Finish image names iats lookups descStart dllnum nameOffs).2.1 =
        iv0.start ∧
      (processImports0Finish image names iats lookups descStart dllnum nameOffs).2.2 = false ∧
      (∀ a, (covered iats a ∨ covered lookups a ∨
             (descStart ≤ a ∧ a < descStart + 20 * dllnum)) →
        (processImports0Finish image names iats lookups descStart dllnum nameOffs).1 a = 0)) ∧
    (1 < (Interval.flatten names).length →
      (processImports0Finish image names iats lookups descStart dllnum nameOffs).2.1 = 0 ∧
      (processImports0Finish image names iats lookups descStart dllnum nameOffs).2.2 = true ∧
      (∀ a, ¬ (descStart ≤ a ∧ a < descStart + 20 * dllnum) →
            ¬ covered (Interval.flatten names) a →
        (processImports0Finish image names iats lookups descStart dllnum nameOffs).1 a =
          image a) ∧
      (∀ j, j < dllnum →
        readLe32 (processImports0Finish image names iats lookups descStart dllnum nameOffs).1
            (descStart + 20 * j + 12) = nameOffs.getD j 0 ∧
        (∀ k, k < 20 → (k < 12 ∨ 16 ≤ k) →
          (processImports0Finish image names iats lookups descStart dllnum nameOffs).1
              (descStart + 20 * j + k) = 0))) := by
  constructor
  · intro iv0 hf
    have hnot : ¬ 1 < (Interval.flatten names).length := by rw [hf]; simp
    unfold processImports0Finish
    rw [if_neg hnot]
    refine ⟨by rw [hf], rfl, ?_⟩
    intro a ha
    simp only []
    rcases ha with ha | ha | ha
    · -- covered by an IAT interval: zeroed by iats.clear, zero preserved
      refine clearIntervals_zero _ (clearIntervals_zero _ (clearIntervals_covered _ ?_))
      rcases ha with ⟨iv, hiv, hc⟩
      exact ⟨iv, List.mem_append_left _ hiv, hc⟩
    · -- covered by a lookup interval: zeroed by lookups.clear
      exact clearIntervals_zero _ (clearIntervals_covered _ ha)
    · -- inside the descriptor array: zeroed via the interval added to iats
      refine clearIntervals_zero _ (clearIntervals_zero _ (clearIntervals_covered _ ?_))
      exact ⟨⟨descStart, 20 * dllnum⟩, List.mem_append_right _ (by simp), ha.1, ha.2⟩
  · intro hgt
    unfold processImports0Finish
    rw [if_pos hgt]
    refine ⟨rfl, rfl, ?_, ?_⟩
    · intro a hdesc hcov
      simp only []
      rw [clearIntervals_not_covered _ hcov]
      exact writeDescs_outside descStart nameOffs 0 image a (by simp [hlen]; omega)
    · intro j hj
      have hj' : j < nameOffs.length := by omega
      constructor
      · simp only []
        have hnc : ∀ k, k < 4 →
            ¬ covered (Interval.flatten names) (descStart + 20 * j + 12 + k) := by
          intro k hk
          exact hdisj _ (by omega) (by omega)
        unfold readLe32
        rw [clearIntervals_not_covered _ (by simpa using hnc 0 (by omega)),
            clearIntervals_not_covered _ (hnc 1 (by omega)),
            clearIntervals_not_covered _ (hnc 2 (by omega)),
            clearIntervals_not_covered _ (hnc 3 (by omega))]
        have := readLe32_writeDescs descStart nameOffs j image hj' (hoffs j hj')
        unfold readLe32 at this
        exact this
      · intro k hk hk2
        simp only []
        rw [clearIntervals_not_covered _ (hdisj _ (by omega) (by omega))]
        have := writeDescs_zero_byte descStart nameOffs 0 j image (by simpa using hj') k hk hk2
        simpa using this

/-- Concrete evaluation of `imports_finish_dichotomy`: the name regions
`(100,10)` and `(110,5)` flatten to the single interval `(100,15)`, so
the IAT interval `(50,4)`, the lookup interval `(60,8)` and the one
20-byte descriptor at offset 10 are zeroed and 100 is returned. -/
theorem imports_finish_witness :
    (processImports0Finish (fun _ => 7) [Iv.mk 100 10, Iv.mk 110 5]
      [Iv.mk 50 4] [Iv.mk 60 8] 10 1 [100]).2.1 = 100 ∧
    (processImports0Finish (fun _ => 7) [Iv.mk 100 10, Iv.mk 110 5]
      [Iv.mk 50 4] [Iv.mk 60 8] 10 1 [100]).1 52 = 0 ∧
    (processImports0Finish (fun _ => 7) [Iv.mk 100 10, Iv.mk 110 5]
      [Iv.mk 50 4] [Iv.mk 60 8] 10 1 [100]).1 15 = 0 ∧
    (processImports0Finish (fun _ => 7) [Iv.mk 100 10, Iv.mk 110 5]
      [Iv.mk 50 4] [Iv.mk 60 8] 10 1 [100]).1 64 = 0 := by
  have hfl : Interval.flatten [Iv.mk 100 10, Iv.mk 110 5] = [Iv.mk 100 15] := by decide
  have h := imports_finish_dichotomy (fun _ => 7) [Iv.mk 100 10, Iv.mk 110 5]
    [Iv.mk 50 4] [Iv.mk 60 8] 10 1 [100]
    (by decide)
    (by
      intro a h1 h2 hc
      rw [hfl] at hc
      rcases hc with ⟨iv, hiv, hle, hlt⟩
      simp only [List.mem_cons, List.not_mem_nil, or_false] at hiv
      subst hiv
      simp at hle hlt
      omega)
    (by
      intro j hj
      simp only [List.length_cons, List.length_nil] at hj
      have hj0 : j = 0 := by omega
      subst hj0
      decide)
  have h1 := h.1 (Iv.mk 100 15) hfl
  refine ⟨h1.1, ?_, ?_, ?_⟩
  · exact h1.2.2 52 (Or.inl (by decide))
  · exact h1.2.2 15 (Or.inr (Or.inr (by omega)))
  · exact h1.2.2 64 (Or.inr (Or.inl (by decide)))

/-! ### `PeFile::Reloc` — building a new relocation stream -/

/-- The staging area offset of the builder (64 KiB). -/
def RELOC_INPLACE_OFFSET : Nat := 65536

/-- The `Reloc` builder constructed for compression
(`Reloc::Reloc(unsigned relocnum)`): the staged packed entries (the
little-endian words `(pos << 4) | type` written at
`RELOC_INPLACE_OFFSET`, in `add` order) and whether the builder still
owns its buffer (`start_did_alloc`). -/
structure RelocBuilder where
  keys : List Nat
  alive : Bool
deriving DecidableEq

/-- Failures of the builder: the `throwCantPack` messages of `add` and
`finish` plus the `assert(start_did_alloc)` precondition. -/
inductive RelocPackErr where
  | relocationOverflow
  | duplicateRelocs
  | tooManyInplaceRelocs
  | assertFailed
deriving DecidableEq

/-- `PeFile::Reloc::add`: stage `(pos << 4) + (type & 0xf)` after
checking `(pos << 4) >> 4 == pos` (in 32-bit arithmetic, i.e.
`pos < 2^28`) and `type <= 0xf`. -/
def Reloc.add (b : RelocBuilder) (pos type : Nat) : Except RelocPackErr RelocBuilder :=
  if b.alive = false then .error .assertFailed
  else if 2 ^ 28 ≤ pos ∨ 15 < type then .error .relocationOverflow
  else .ok { keys := b.keys ++ [pos * 16 + type % 16], alive := true }

/-- One emitted base-relocation page block: `virtual_address`,
`size_of_block` (8-byte header plus 2 bytes per entry plus alignment
padding) and the 16-bit entries written. -/
structure RelocBlock where
  va : Nat
  sob : Nat
  entries : List Nat
deriving DecidableEq

/-- Round a block size up to a multiple of 4 by appending zero bytes
(the `while ((sob & 3) != 0)` loop of `finish_block`). -/
def pad4 (n : Nat) : Nat := n + (4 - n % 4) % 4

/-- `finish_block`: pad the block being written to 4-byte alignment. -/
def finishBlock (blk : RelocBlock) : RelocBlock := { blk with sob := pad4 blk.sob }

/-- The 16-bit entry written for the packed key `pos`:
`((pos & 0xf) << 12) + ((pos >> 4) & 0xfff)`. -/
def relocEntry16 (pos : Nat) : Nat := (pos % 16) * 4096 + (pos / 16) % 4096

/-- The page start stored in `virtual_address`: `(pos >> 4) & ~0xfff`. -/
def relocPageVA (pos : Nat) : Nat := (pos / 16 / 4096) * 4096

/-- The packed keys a block encodes, read back from its
`virtual_address` and its 16-bit entries. -/
def blockKeys (blk : RelocBlock) : List Nat :=
  blk.entries.map fun e => (blk.va + e % 4096) * 16 + e / 4096

/-- Drop adjacent duplicates (used to state "one page block per
distinct page"). -/
def dedupAdj : List Nat → List Nat
  | [] => []
  | [a] => [a]
  | a :: b :: rest => if a = b then dedupAdj (b :: rest) else a :: dedupAdj (b :: rest)

/-- The emission loop of `PeFile::Reloc::finish` over the sorted packed
keys.  `ic` is the index of the staged entry being read, `prevKey` the
key of the previous iteration (for the duplicate check), `prevLeader`
the `prev` variable (the key that opened the current block), `done` the
finished (padded) blocks and `cur` the block being written.  The write
pointer `rb.rel1` sits `(sum of finished sizes) + cur.sob` bytes from
the buffer start; the "too many inplace relocs" check compares it with
the staging-area read pointer `RELOC_INPLACE_OFFSET + 4 * ic`. -/
def Reloc.finishGo (force : Bool) :
    List Nat → Nat → Nat → Nat → List RelocBlock → RelocBlock →
    Except RelocPackErr (List RelocBlock)
  | [], _, _, _, done, cur => .ok (done ++ [finishBlock cur])
  | pos :: rest, ic, prevKey, prevLeader, done, cur =>
    if prevKey = pos ∧ force = false then .error .duplicateRelocs
    else if 65536 ≤ pos ^^^ prevLeader then
      -- `(pos ^ prev) >= 0x10000`: start a new page block
      let done2 := done ++ [finishBlock cur]
      let off := (done2.map RelocBlock.sob).sum
      if RELOC_INPLACE_OFFSET + 4 * ic ≤ off + 8 then .error .tooManyInplaceRelocs
      else
        Reloc.finishGo force rest (ic + 1) pos pos done2
          { va := relocPageVA pos, sob := 10, entries := [relocEntry16 pos] }
    else
      let off := (done.map RelocBlock.sob).sum
      if RELOC_INPLACE_OFFSET + 4 * ic ≤ off + cur.sob then .error .tooManyInplaceRelocs
      else
        Reloc.finishGo force rest (ic + 1) pos prevLeader done
          { cur with sob := cur.sob + 2, entries := cur.entries ++ [relocEntry16 pos] }

/-- `PeFile::Reloc::finish`: sort the staged entries ascending as
32-bit words, reject adjacent duplicates unless `force`, emit one page
block per run of keys sharing their upper 16 bits, pad every emitted
block to 4-byte alignment, and transfer ownership of the output: the
returned builder is poisoned (`start_did_alloc` cleared, spans
invalidated).  Returns the emitted blocks, `result_size` and the
poisoned builder. -/
def Reloc.finish (force : Bool) (b : RelocBuilder) :
    Except RelocPackErr (List RelocBlock × Nat × RelocBuilder) :=
  if b.alive = false then .error .assertFailed
  else
    match b.keys.insertionSort (· ≤ ·) with
    | [] => .ok ([], 0, { keys := b.keys, alive := false })
    | p0 :: rest =>
      -- the first iteration always opens a block (`ic == 0`), and the
      -- inplace check cannot fire there (`rel1` sits at offset 8)
      match Reloc.finishGo force rest 1 p0 p0 []
          { va := relocPageVA p0, sob := 10, entries := [relocEntry16 p0] } with
      | .error e => .error e
      | .ok blocks =>
        .ok (blocks, (blocks.map RelocBlock.sob).sum, { keys := b.keys, alive := false })

theorem pad4_mod (n : Nat) : pad4 n % 4 = 0 := by unfold pad4; omega

theorem pad4_le_even {n : Nat} (h : n % 2 = 0) : pad4 n ≤ n + 2 := by unfold pad4; omega

/-- Reconstructing a packed key from the written 16-bit entry and the
block's page start. -/
theorem blockKey_entry (va pos : Nat) (hva : va = relocPageVA pos) :
    (va + relocEntry16 pos % 4096) * 16 + relocEntry16 pos / 4096 = pos := by
  subst hva
  unfold relocPageVA relocEntry16
  omega

/-- `(pos ^ prev) >= 0x10000` is exactly "different upper 16 bits". -/
theorem xor_ge_iff_page_ne (a b : Nat) : 65536 ≤ a ^^^ b ↔ a / 65536 ≠ b / 65536 := by
  have hx : (a ^^^ b) >>> 16 = (a >>> 16) ^^^ (b >>> 16) := by
    apply Nat.eq_of_testBit_eq
    intro i
    simp [Nat.testBit_shiftRight, Nat.testBit_xor]
  rw [Nat.shiftRight_eq_div_pow, Nat.shiftRight_eq_div_pow, Nat.shiftRight_eq_div_pow] at hx
  norm_num at hx
  constructor
  · intro h he
    rw [he, Nat.xor_self] at hx
    omega
  · intro h
    by_contra hlt
    push_neg at hlt
    have h0 : (a ^^^ b) / 65536 = 0 := by omega
    rw [h0] at hx
    exact h (Nat.xor_eq_zero.mp hx.symm)

theorem relocPageVA_eq (p : Nat) : relocPageVA p = p / 65536 * 4096 := by
  unfold relocPageVA; omega

theorem dedupAdj_cons_eq {a b : Nat} {l : List Nat} (h : a = b) :
    dedupAdj (a :: b :: l) = dedupAdj (b :: l) := by simp [dedupAdj, h]

theorem dedupAdj_cons_ne {a b : Nat} {l : List Nat} (h : a ≠ b) :
    dedupAdj (a :: b :: l) = a :: dedupAdj (b :: l) := by simp [dedupAdj, h]

theorem sum_append_finishBlock (done : List RelocBlock) (cur : RelocBlock) :
    ((done ++ [finishBlock cur]).map RelocBlock.sob).sum =
      (done.map RelocBlock.sob).sum + pad4 cur.sob := by
  simp [finishBlock]

theorem blockKeys_push (cur : RelocBlock) (e : Nat) :
    blockKeys { cur with sob := cur.sob + 2, entries := cur.entries ++ [e] } =
      blockKeys cur ++ [(cur.va + e % 4096) * 16 + e / 4096] := by
  simp [blockKeys]

/-- Without `--force`, an adjacent duplicate among the keys still to be
processed makes the emission loop raise "duplicate relocs". -/
theorem finishGo_dup :
    ∀ (rest : List Nat) (ic prevKey prevLeader : Nat)
      (done : List RelocBlock) (cur : RelocBlock),
    cur.sob = 8 + 2 * cur.entries.length →
    (done.map RelocBlock.sob).sum + cur.sob + 2 ≤ 12 * ic →
    1 ≤ ic → ic + rest.length ≤ 4100 →
    ¬ List.Chain' (fun x y => x ≠ y) (prevKey :: rest) →
    Reloc.finishGo false rest ic prevKey prevLeader done cur = .error .duplicateRelocs
  | [], _, prevKey, _, _, _ => by
    intro _ _ _ _ hch
    exact absurd (List.chain'_singleton prevKey) hch
  | pos :: rest', ic, prevKey, prevLeader, done, cur => by
    intro hsob hW hic hlen hch
    rw [List.chain'_cons] at hch
    simp only [List.length_cons] at hlen
    by_cases hd : prevKey = pos
    · show Reloc.finishGo false (pos :: rest') ic prevKey prevLeader done cur = _
      rw [Reloc.finishGo, if_pos ⟨hd, rfl⟩]
    · have hch' : ¬ List.Chain' (fun x y => x ≠ y) (pos :: rest') := by tauto
      show Reloc.finishGo false (pos :: rest') ic prevKey prevLeader done cur = _
      rw [Reloc.finishGo, if_neg (by simp [hd])]
      by_cases hpage : 65536 ≤ pos ^^^ prevLeader
      · rw [if_pos hpage]
        simp only []
        have hoff := sum_append_finishBlock done cur
        have hpad : pad4 cur.sob ≤ cur.sob + 2 := pad4_le_even (by omega)
        rw [if_neg (by
          rw [hoff]
          unfold RELOC_INPLACE_OFFSET
          omega)]
        exact finishGo_dup rest' (ic + 1) pos pos _ _ (by simp)
          (by rw [hoff]; simp; omega) (by omega) (by omega) hch'
      · rw [if_neg hpage]
        simp only []
        rw [if_neg (by unfold RELOC_INPLACE_OFFSET; omega)]
        exact finishGo_dup rest' (ic + 1) pos prevLeader done _ (by simp [hsob]; omega)
          (by simp; omega) (by omega) (by omega) hch'

/-- With `--force` or duplicate-free keys the emission loop succeeds,
and the blocks appended to `done` encode exactly the remaining keys:
their flattened reconstruction is the key list, one block is emitted
per run of keys with equal upper 16 bits, and every block size is the
padded `8 + 2 * entries`. -/
theorem finishGo_ok (force : Bool) :
    ∀ (rest : List Nat) (ic prevKey prevLeader : Nat)
      (done : List RelocBlock) (cur : RelocBlock),
    cur.va = relocPageVA prevLeader →
    cur.sob = 8 + 2 * cur.entries.length →
    (∀ blk ∈ done, blk.sob = pad4 (8 + 2 * blk.entries.length)) →
    (done.map RelocBlock.sob).sum + cur.sob + 2 ≤ 12 * ic →
    1 ≤ ic → ic + rest.length ≤ 4100 →
    (force = true ∨ List.Chain' (fun x y => x ≠ y) (prevKey :: rest)) →
    ∃ blocks,
      Reloc.finishGo force rest ic prevKey prevLeader done cur = .ok blocks ∧
      blocks.flatMap blockKeys = done.flatMap blockKeys ++ blockKeys cur ++ rest ∧
      blocks.map RelocBlock.va =
        done.map RelocBlock.va ++ dedupAdj ((prevLeader :: rest).map relocPageVA) ∧
      (∀ blk ∈ blocks, blk.sob = pad4 (8 + 2 * blk.entries.length))
  | [], ic, prevKey, prevLeader, done, cur => by
    intro hva hsob hdone _ _ _ _
    refine ⟨done ++ [finishBlock cur], by rw [Reloc.finishGo], ?_, ?_, ?_⟩
    · simp [finishBlock, blockKeys]
    · simp [finishBlock, dedupAdj, hva]
    · intro blk hblk
      rcases List.mem_append.mp hblk with h | h
      · exact hdone blk h
      · simp only [List.mem_singleton] at h
        subst h
        simp [finishBlock, hsob]
  | pos :: rest', ic, prevKey, prevLeader, done, cur => by
    intro hva hsob hdone hW hic hlen hok
    simp only [List.length_cons] at hlen
    have hok' : force = true ∨ List.Chain' (fun x y => x ≠ y) (pos :: rest') := by
      rcases hok with h | h
      · exact Or.inl h
      · exact Or.inr (List.chain'_cons.mp h).2
    have hnd : ¬ (prevKey = pos ∧ force = false) := by
      rcases hok with h | h
      · simp [h]
      · intro ⟨he, _⟩
        exact (List.chain'_cons.mp h).1 he
    show ∃ blocks, Reloc.finishGo force (pos :: rest') ic prevKey prevLeader done cur = .ok blocks ∧ _
    rw [Reloc.finishGo, if_neg hnd]
    by_cases hpage : 65536 ≤ pos ^^^ prevLeader
    · rw [if_pos hpage]
      simp only []
      have hoff := sum_append_finishBlock done cur
      have hpad : pad4 cur.sob ≤ cur.sob + 2 := pad4_le_even (by omega)
      rw [if_neg (by rw [hoff]; unfold RELOC_INPLACE_OFFSET; omega)]
      have hpne : relocPageVA prevLeader ≠ relocPageVA pos := by
        rw [relocPageVA_eq, relocPageVA_eq]
        have := (xor_ge_iff_page_ne pos prevLeader).mp hpage
        omega
      have hbk0 : blockKeys
          { va := relocPageVA pos, sob := 10, entries := [relocEntry16 pos] } = [pos] := by
        simp only [blockKeys, List.map_cons, List.map_nil]
        rw [blockKey_entry _ _ rfl]
      obtain ⟨blocks, he, hflat, hvas, hshape⟩ :=
        finishGo_ok force rest' (ic + 1) pos pos (done ++ [finishBlock cur])
          { va := relocPageVA pos, sob := 10, entries := [relocEntry16 pos] }
          rfl (by simp)
          (by
            intro blk hblk
            rcases List.mem_append.mp hblk with h | h
            · exact hdone blk h
            · simp only [List.mem_singleton] at h
              subst h
              simp [finishBlock, hsob])
          (by rw [hoff]; simp; omega) (by omega) (by omega) hok'
      refine ⟨blocks, he, ?_, ?_, hshape⟩
      · rw [hflat, hbk0]
        simp [finishBlock, blockKeys]
      · rw [hvas]
        simp only [List.map_append, List.map_cons]
        rw [dedupAdj_cons_ne (by simpa using hpne)]
        simp [finishBlock, hva]
    · rw [if_neg hpage]
      simp only []
      rw [if_neg (by unfold RELOC_INPLACE_OFFSET; omega)]
      have hpeq : relocPageVA pos = relocPageVA prevLeader := by
        rw [relocPageVA_eq, relocPageVA_eq]
        have : ¬ pos / 65536 ≠ prevLeader / 65536 := fun hne =>
          hpage ((xor_ge_iff_page_ne pos prevLeader).mpr hne)
        omega
      obtain ⟨blocks, he, hflat, hvas, hshape⟩ :=
        finishGo_ok force rest' (ic + 1) pos prevLeader done
          { cur with sob := cur.sob + 2, entries := cur.entries ++ [relocEntry16 pos] }
          hva (by simp [hsob]; omega) hdone (by simp; omega) (by omega) (by omega) hok'
      refine ⟨blocks, he, ?_, ?_, hshape⟩
      · rw [hflat, blockKeys_push,
            blockKey_entry cur.va pos (by rw [hva, hpeq])]
        simp
      · rw [hvas]
        simp only [List.map_cons]
        rw [dedupAdj_cons_eq (by rw [hpeq] : relocPageVA prevLeader = relocPageVA pos),
            hpeq]

theorem chain'_lt_of_le_ne {l : List Nat} (h1 : List.Chain' (· ≤ ·) l)
    (h2 : List.Chain' (fun x y => x ≠ y) l) : List.Chain' (· < ·) l := by
  induction l with
  | nil => simp
  | cons a t ih =>
    cases t with
    | nil => simp
    | cons b t2 =>
      rw [List.chain'_cons] at h1 h2 ⊢
      exact ⟨lt_of_le_of_ne h1.1 h2.1, ih h1.2 h2.2⟩

theorem sorted_chain_ne_iff_nodup {l : List Nat} (hp : l.Pairwise (· ≤ ·)) :
    List.Chain' (fun x y => x ≠ y) l ↔ l.Nodup := by
  constructor
  · intro hc
    have hlt : List.Chain' (· < ·) l := chain'_lt_of_le_ne hp.chain' hc
    have hplt : l.Pairwise (· < ·) := List.chain'_iff_pairwise.mp hlt
    exact hplt.imp fun h => Nat.ne_of_lt h
  · intro hn
    exact List.Pairwise.chain' hn

theorem sum_mod4 {l : List Nat} (h : ∀ x ∈ l, x % 4 = 0) : l.sum % 4 = 0 := by
  induction l with
  | nil => rfl
  | cons a t ih =>
    rw [List.sum_cons]
    have ha := h a (by simp)
    have ht := ih fun x hx => h x (by simp [hx])
    omega

/-- C5: `Reloc::finish` sorts the staged entries ascending by the
packed key `(pos << 4) | type` and emits exactly one page block per
distinct upper-16-bit page (equivalently, per distinct high-20-bit page
of the relocation RVA), each block's `size_of_block` padded up to a
multiple of 4 (so the total output size is a multiple of 4); with two
equal packed keys present it raises `CantPack` "duplicate relocs"
unless the force option is set; and it transfers buffer ownership to
the caller, after which the builder is poisoned and rejects further
`add` and `finish` calls. -/
theorem reloc_finish_spec (force : Bool) (b : RelocBuilder)
    (halive : b.alive = true) (hn : b.keys.length ≤ 4096) :
    (¬ b.keys.Nodup → Reloc.finish false b = .error .duplicateRelocs) ∧
    ((force = true ∨ b.keys.Nodup) → ∃ blocks size b2,
      Reloc.finish force b = .ok (blocks, size, b2) ∧
      blocks.flatMap blockKeys = b.keys.insertionSort (· ≤ ·) ∧
      blocks.map RelocBlock.va =
        dedupAdj ((b.keys.insertionSort (· ≤ ·)).map relocPageVA) ∧
      (∀ blk ∈ blocks, blk.sob = pad4 (8 + 2 * blk.entries.length) ∧ blk.sob % 4 = 0) ∧
      size = (blocks.map RelocBlock.sob).sum ∧ size % 4 = 0 ∧
      b2.alive = false ∧
      (∀ pos type, Reloc.add b2 pos type = .error .assertFailed) ∧
      (∀ f : Bool, Reloc.finish f b2 = .error .assertFailed)) := by
  have hperm := b.keys.perm_insertionSort (· ≤ ·)
  have hpair : (b.keys.insertionSort (· ≤ ·)).Pairwise (· ≤ ·) :=
    List.sorted_insertionSort (· ≤ ·) b.keys
  have hlen : (b.keys.insertionSort (· ≤ ·)).length = b.keys.length :=
    b.keys.length_insertionSort (· ≤ ·)
  constructor
  · intro hnd
    have hnd2 : ¬ (b.keys.insertionSort (· ≤ ·)).Nodup := fun h =>
      hnd (hperm.nodup h)
    cases hs : b.keys.insertionSort (· ≤ ·) with
    | nil =>
      exact absurd (hs ▸ List.nodup_nil) hnd2
    | cons p0 rest =>
      rw [hs] at hpair hnd2 hlen
      have hch : ¬ List.Chain' (fun x y => x ≠ y) (p0 :: rest) :=
        fun hc => hnd2 ((sorted_chain_ne_iff_nodup hpair).mp hc)
      have hgo := finishGo_dup rest 1 p0 p0 []
        { va := relocPageVA p0, sob := 10, entries := [relocEntry16 p0] }
        (by simp) (by simp) (by omega) (by simp at hlen; omega) hch
      rw [Reloc.finish, if_neg (by simp [halive]), hs]
      simp only []
      rw [hgo]
  · intro hok
    cases hs : b.keys.insertionSort (· ≤ ·) with
    | nil =>
      rw [Reloc.finish, if_neg (by simp [halive]), hs]
      refine ⟨[], 0, _, rfl, by simp, by simp [dedupAdj], by simp, by simp,
        by simp, rfl, ?_, ?_⟩
      · intro pos type; rfl
      · intro f; rfl
    | cons p0 rest =>
      rw [hs] at hpair hlen
      have hok2 : force = true ∨ List.Chain' (fun x y => x ≠ y) (p0 :: rest) := by
        rcases hok with h | h
        · exact Or.inl h
        · right
          refine (sorted_chain_ne_iff_nodup hpair).mpr ?_
          have := (hperm.nodup_iff).mpr h
          rwa [hs] at this
      obtain ⟨blocks, he, hflat, hvas, hshape⟩ :=
        finishGo_ok force rest 1 p0 p0 []
          { va := relocPageVA p0, sob := 10, entries := [relocEntry16 p0] }
          rfl (by simp) (by simp) (by simp) (by omega)
          (by simp at hlen; omega) hok2
      have hbk0 : blockKeys
          { va := relocPageVA p0, sob := 10, entries := [relocEntry16 p0] } = [p0] := by
        simp only [blockKeys, List.map_cons, List.map_nil]
        rw [blockKey_entry _ _ rfl]
      rw [Reloc.finish, if_neg (by simp [halive]), hs]
      simp only []
      rw [he]
      refine ⟨blocks, (blocks.map RelocBlock.sob).sum, _, rfl, ?_, ?_, ?_, rfl, ?_,
        rfl, ?_, ?_⟩
      · rw [hflat, hbk0]; simp
      · rw [hvas]; simp
      · intro blk hblk
        exact ⟨hshape blk hblk, by rw [hshape blk hblk]; exact pad4_mod _⟩
      · exact sum_mod4 (by
          intro x hx
          rcases List.mem_map.mp hx with ⟨blk, hblk, hxe⟩
          rw [← hxe, hshape blk hblk]
          exact pad4_mod _)
      · intro pos type; rfl
      · intro f; rfl

/-- Concrete evaluation of `reloc_finish_spec`: three staged entries on
two 4-KiB pages produce two page blocks (pages 0x1000 and 0x11000),
reconstruct the sorted keys, and a builder with a duplicate key is
rejected. -/
theorem reloc_finish_witness :
    (∃ blocks size b2,
      Reloc.finish false (RelocBuilder.mk [65779, 65587, 1168003] true) =
        .ok (blocks, size, b2) ∧
      blocks.flatMap blockKeys = [65587, 65779, 1168003] ∧
      blocks.map RelocBlock.va = [4096, 69632] ∧
      size % 4 = 0 ∧ b2.alive = false) ∧
    Reloc.finish false (RelocBuilder.mk [65587, 65587] true) =
      .error .duplicateRelocs := by
  constructor
  · obtain ⟨blocks, size, b2, he, hflat, hvas, hshape, hsize, hmod, hal, hrest⟩ :=
      (reloc_finish_spec false (RelocBuilder.mk [65779, 65587, 1168003] true)
        rfl (by decide)).2 (Or.inr (by decide))
    refine ⟨blocks, size, b2, he, ?_, ?_, hmod, hal⟩
    · rw [hflat]; decide
    · rw [hvas]; decide
  · exact (reloc_finish_spec false (RelocBuilder.mk [65587, 65587] true)
      rfl (by decide)).1 (by decide)

/-! ### `PeFile32::processRelocs` and `PeFile64::processRelocs` (pass 1)

The external codec `optimizeReloc` is a parameter: it receives the bit
width, the deduplicated relocation list and the image view starting at
`rvamin`, and returns the preprocessed output bytes together with its
contribution to `big_relocs`. -/

/-- 64-bit wrapping subtraction `a - b` (for `a < 2^64`). -/
def sub64 (a b : Nat) : Nat := (a + U64 - b % U64) % U64

/-- Read a little-endian 64-bit value at `addr` (`get_le64`). -/
def readLe64 (m : Nat → Nat) (addr : Nat) : Nat :=
  m addr + 256 * (m (addr + 1) + 256 * (m (addr + 2) + 256 * (m (addr + 3) +
    256 * (m (addr + 4) + 256 * (m (addr + 5) + 256 * (m (addr + 6) +
    256 * m (addr + 7)))))))

/-- Write a little-endian 64-bit value at `addr` (`set_le64`). -/
def writeLe64 (m : Nat → Nat) (addr v : Nat) : Nat → Nat :=
  fun a =>
    if a = addr then v % 256
    else if a = addr + 1 then v / 256 % 256
    else if a = addr + 2 then v / 65536 % 256
    else if a = addr + 3 then v / 16777216 % 256
    else if a = addr + 4 then v / 4294967296 % 256
    else if a = addr + 5 then v / 1099511627776 % 256
    else if a = addr + 6 then v / 281474976710656 % 256
    else if a = addr + 7 then v / 72057594037927936 % 256
    else m a

/-- Per-type record count (`counts[t]`), over the `(pos, type)` pairs
yielded by `Reloc::next` (which never yields type 0). -/
def relocCounts (records : List (Nat × Nat)) (t : Nat) : Nat :=
  (records.filter fun r => r.2 = t).length

/-- `relocnum`: the total of `counts[1..15]`. -/
def relocnum (records : List (Nat × Nat)) : Nat :=
  (records.filter fun r => 1 ≤ r.2 ∧ r.2 ≤ 15).length

/-- The per-type collection loop (`while (rel.next(pos, type))`):
records with `pos >= ih.imagesize` are skipped; the rest store
`pos - rvamin` (32-bit wrap) into `fix[type]`. -/
def relocBucket (imagesize rvamin : Nat) (records : List (Nat × Nat)) (t : Nat) :
    List Nat :=
  (records.filter fun r => r.1 < imagesize ∧ r.2 = t).map fun r => sub32 r.1 rvamin

/-- The duplicate-removal pass over one sorted `fix` array: keep each
value that differs from the previous one (`prev` initialised to
`~0u`). -/
def dedupRun (prev : Nat) : List Nat → List Nat
  | [] => []
  | a :: rest => if a = prev then dedupRun prev rest else a :: dedupRun a rest

/-- Sorted and deduplicated `fix[t]` (`xcounts[t]` entries). -/
def relocXfix (imagesize rvamin : Nat) (records : List (Nat × Nat)) (t : Nat) :
    List Nat :=
  dedupRun (U32 - 1) ((relocBucket imagesize rvamin records t).insertionSort (· ≤ ·))

/-- The type-3 preprocessing loop of the 32-bit pass: at each
deduplicated target `fix[3][ic] + rvamin`, subtract
`ih.imagebase + rvamin` from the 32-bit word in the image. -/
def patch32 (imagebase rvamin : Nat) (image : Nat → Nat) (targets : List Nat) :
    Nat → Nat :=
  targets.foldl
    (fun m v =>
      writeLe32 m (add32 v rvamin)
        (sub32 (sub32 (readLe32 m (add32 v rvamin)) imagebase) rvamin))
    image

/-- The type-10 preprocessing loop of the 64-bit pass (`get_le64` /
`set_le64`, 64-bit subtraction). -/
def patch64 (imagebase rvamin : Nat) (image : Nat → Nat) (targets : List Nat) :
    Nat → Nat :=
  targets.foldl
    (fun m v =>
      writeLe64 m (add32 v rvamin)
        (sub64 (sub64 (readLe64 m (add32 v rvamin)) imagebase) rvamin))
    image

/-- Little-endian serialisation of one 32-bit array entry. -/
def le32Bytes (v : Nat) : List Nat :=
  [v % 256, v / 256 % 256, v / 65536 % 256, v / 16777216 % 256]

/-- The appended tail for one relocation type: the array followed by a
0 sentinel when non-empty, nothing otherwise (`sorelocs` only advances
past the written sentinel when `xcounts[ic]` is non-zero). -/
def relocTail (arr : List Nat) : List Nat :=
  if arr = [] then [] else arr.flatMap le32Bytes ++ le32Bytes 0

/-- Result of a pass-1 relocation preprocessor: the rewritten image,
the `orelocs[0..sorelocs)` stream, `big_relocs`, the relocation types
warned about, and whether the strip/empty branch was taken. -/
structure RelocsOut where
  image : Nat → Nat
  stream : List Nat
  bigRelocs : Nat
  warnings : List Nat
  stripped : Bool

/-- `throwCantUnpack("Invalid relocs")` of the 32-bit overflow guard. -/
inductive RelocsErr where
  | invalidRelocs
deriving DecidableEq

/-- `PeFile32::processRelocs` (pass 1).  `codec` is the external
`optimizeReloc`; `dirAddr`/`dirSize` locate the base-relocation
directory that is zero-filled.  The strip/empty branch's section
removal (`tryremove`) is outside this model. -/
def processRelocs32 (codec : Nat → List Nat → (Nat → Nat) → List Nat × Nat)
    (strip : Bool) (imagesize rvamin imagebase dirAddr dirSize : Nat)
    (records : List (Nat × Nat)) (image : Nat → Nat) : Except RelocsErr RelocsOut :=
  if strip ∨ relocnum records = 0 then
    .ok { image := zeroRange image dirAddr dirSize, stream := [], bigRelocs := 0,
          warnings := [], stripped := true }
  else
    let warnings := ((List.range 16).drop 4).filter fun t => relocCounts records t ≠ 0
    let xf1 := relocXfix imagesize rvamin records 1
    let xf2 := relocXfix imagesize rvamin records 2
    let xf3 := relocXfix imagesize rvamin records 3
    let image1 := patch32 imagebase rvamin image xf3
    let image2 := zeroRange image1 dirAddr dirSize
    let out := codec 32 xf3 fun a => image2 (rvamin + a)
    if 4 * relocnum records + 8192 < out.1.length + 4 * (2 + xf2.length + xf1.length) then
      .error .invalidRelocs
    else
      .ok { image := image2,
            stream := out.1 ++ relocTail xf2 ++ relocTail xf1,
            bigRelocs := out.2 |||
              (if xf2 ≠ [] then 4 else 0) ||| (if xf1 ≠ [] then 2 else 0),
            warnings := warnings, stripped := false }

/-- `PeFile64::processRelocs` (pass 1): identical shape, but only
type 10 is processed with 64-bit arithmetic, every other non-empty type
warns, and the LOW/HIGH append tail does not exist (it is an `#if 0`
block in the source). -/
def processRelocs64 (codec : Nat → List Nat → (Nat → Nat) → List Nat × Nat)
    (strip : Bool) (imagesize rvamin imagebase dirAddr dirSize : Nat)
    (records : List (Nat × Nat)) (image : Nat → Nat) : RelocsOut :=
  if strip ∨ relocnum records = 0 then
    { image := zeroRange image dirAddr dirSize, stream := [], bigRelocs := 0,
      warnings := [], stripped := true }
  else
    let warnings := (List.range 16).filter fun t => t ≠ 10 ∧ relocCounts records t ≠ 0
    let xf10 := relocXfix imagesize rvamin records 10
    let image1 := patch64 imagebase rvamin image xf10
    let image2 := zeroRange image1 dirAddr dirSize
    let out := codec 64 xf10 fun a => image2 (rvamin + a)
    { image := image2, stream := out.1, bigRelocs := out.2,
      warnings := warnings, stripped := false }

theorem writeLe32_outside {m : Nat → Nat} {addr v a : Nat}
    (h : a < addr ∨ addr + 4 ≤ a) : writeLe32 m addr v a = m a := by
  unfold writeLe32
  rw [if_neg (by omega), if_neg (by omega), if_neg (by omega), if_neg (by omega)]

theorem writeLe32_byte (m : Nat → Nat) (addr v k : Nat) (hk : k < 4) :
    writeLe32 m addr v (addr + k) = v / 256 ^ k % 256 := by
  unfold writeLe32
  interval_cases k
  · rw [if_pos (by omega)]; norm_num
  · rw [if_neg (by omega), if_pos (by omega)]; norm_num
  · rw [if_neg (by omega), if_neg (by omega), if_pos (by omega)]; norm_num
  · rw [if_neg (by omega), if_neg (by omega), if_neg (by omega), if_pos (by omega)]; norm_num

theorem readLe32_writeLe32_same (m : Nat → Nat) (addr v : Nat) (hv : v < U32) :
    readLe32 (writeLe32 m addr v) addr = v := by
  have h0 := writeLe32_byte m addr v 0 (by omega)
  have h1 := writeLe32_byte m addr v 1 (by omega)
  have h2 := writeLe32_byte m addr v 2 (by omega)
  have h3 := writeLe32_byte m addr v 3 (by omega)
  simp only [Nat.add_zero] at h0
  unfold readLe32
  rw [h0, h1, h2, h3]
  unfold U32 at hv
  rw [show (256 : Nat) ^ 0 = 1 by norm_num, show (256 : Nat) ^ 1 = 256 by norm_num,
      show (256 : Nat) ^ 2 = 65536 by norm_num, show (256 : Nat) ^ 3 = 16777216 by norm_num,
      Nat.div_one]
  omega

theorem readLe32_writeLe32_disjoint (m : Nat → Nat) (addr v addr' : Nat)
    (h : addr' + 4 ≤ addr ∨ addr + 4 ≤ addr') :
    readLe32 (writeLe32 m addr v) addr' = readLe32 m addr' := by
  unfold readLe32
  rw [writeLe32_outside (by omega), writeLe32_outside (by omega),
      writeLe32_outside (by omega), writeLe32_outside (by omega)]

theorem sub32_lt (a b : Nat) : sub32 a b < U32 := by
  unfold sub32 U32
  exact Nat.mod_lt _ (by norm_num)

theorem patch32_outside (imagebase rvamin : Nat) :
    ∀ (targets : List Nat) (m : Nat → Nat) (a : Nat),
    (∀ v ∈ targets, a < add32 v rvamin ∨ add32 v rvamin + 4 ≤ a) →
    patch32 imagebase rvamin m targets a = m a
  | [], _, _, _ => rfl
  | v :: rest, m, a, h => by
    show patch32 imagebase rvamin _ rest a = m a
    rw [patch32_outside imagebase rvamin rest _ a
          fun w hw => h w (List.mem_cons_of_mem _ hw)]
    exact writeLe32_outside (h v (List.mem_cons_self _ _))

theorem readLe32_patch32_outside (imagebase rvamin : Nat) (targets : List Nat)
    (m : Nat → Nat) (a : Nat)
    (h : ∀ v ∈ targets, a + 4 ≤ add32 v rvamin ∨ add32 v rvamin + 4 ≤ a) :
    readLe32 (patch32 imagebase rvamin m targets) a = readLe32 m a := by
  unfold readLe32
  rw [patch32_outside imagebase rvamin targets m a
        fun v hv => by rcases h v hv with h' | h' <;> omega,
      patch32_outside imagebase rvamin targets m _
        fun v hv => by rcases h v hv with h' | h' <;> omega,
      patch32_outside imagebase rvamin targets m _
        fun v hv => by rcases h v hv with h' | h' <;> omega,
      patch32_outside imagebase rvamin targets m _
        fun v hv => by rcases h v hv with h' | h' <;> omega]

/-- Each deduplicated type-3 target ends holding its original 32-bit
value with `imagebase + rvamin` subtracted (32-bit wrap), provided the
4-byte target ranges are pairwise disjoint. -/
theorem patch32_reads (imagebase rvamin : Nat) :
    ∀ (targets : List Nat) (m : Nat → Nat),
    targets.Pairwise (fun v w =>
      add32 v rvamin + 4 ≤ add32 w rvamin ∨ add32 w rvamin + 4 ≤ add32 v rvamin) →
    ∀ v ∈ targets,
      readLe32 (patch32 imagebase rvamin m targets) (add32 v rvamin) =
        sub32 (sub32 (readLe32 m (add32 v rvamin)) imagebase) rvamin
  | [], _, _, v, hv => absurd hv (List.not_mem_nil v)
  | w :: rest, m, hp, v, hv => by
    rcases List.pairwise_cons.mp hp with ⟨hw, hrest⟩
    rcases List.mem_cons.mp hv with hvw | hvr
    · subst hvw
      show readLe32 (patch32 imagebase rvamin _ rest) _ = _
      rw [readLe32_patch32_outside imagebase rvamin rest _ _
            fun u hu => hw u hu]
      exact readLe32_writeLe32_same m _ _ (sub32_lt _ _)
    · show readLe32 (patch32 imagebase rvamin _ rest) _ = _
      rw [patch32_reads imagebase rvamin rest _ hrest v hvr]
      congr 2
      exact readLe32_writeLe32_disjoint m _ _ _ (by
        rcases hw v hvr with h' | h' <;> omega)

open Interval in
/-- C6: in the 32-bit pass-1 relocation preprocessor, each deduplicated
type-3 (HIGHLOW) target has `imagebase + rvamin` subtracted from its
in-image 32-bit value, the deduplicated type-3 list is passed to
`optimizeReloc` with `bits = 32`, the deduplicated type-2 then type-1
RVA arrays are appended after the codec output each followed by a
0 sentinel (appearing, and setting the corresponding `big_relocs` bit,
exactly when the array is non-empty), and relocation types 4..15
produce a warning and are excluded from the output. -/
theorem processRelocs32_spec
    (codec : Nat → List Nat → (Nat → Nat) → List Nat × Nat)
    (imagesize rvamin imagebase dirAddr dirSize : Nat)
    (records : List (Nat × Nat)) (image : Nat → Nat)
    (hnum : relocnum records ≠ 0)
    (hguard : (codec 32 (relocXfix imagesize rvamin records 3) fun a =>
        zeroRange (patch32 imagebase rvamin image (relocXfix imagesize rvamin records 3))
          dirAddr dirSize (rvamin + a)).1.length
        + 4 * (2 + (relocXfix imagesize rvamin records 2).length
                 + (relocXfix imagesize rvamin records 1).length)
        ≤ 4 * relocnum records + 8192)
    (hsep : (relocXfix imagesize rvamin records 3).Pairwise fun v w =>
      add32 v rvamin + 4 ≤ add32 w rvamin ∨ add32 w rvamin + 4 ≤ add32 v rvamin)
    (hdir : ∀ v ∈ relocXfix imagesize rvamin records 3, ∀ k, k < 4 →
      ¬ (dirAddr ≤ add32 v rvamin + k ∧ add32 v rvamin + k < dirAddr + dirSize)) :
    ∃ out, processRelocs32 codec false imagesize rvamin imagebase dirAddr dirSize
        records image = .ok out ∧
      (∀ v ∈ relocXfix imagesize rvamin records 3,
        readLe32 out.image (add32 v rvamin) =
          sub32 (sub32 (readLe32 image (add32 v rvamin)) imagebase) rvamin) ∧
      out.stream =
        (codec 32 (relocXfix imagesize rvamin records 3)
            fun a => out.image (rvamin + a)).1
          ++ relocTail (relocXfix imagesize rvamin records 2)
          ++ relocTail (relocXfix imagesize rvamin records 1) ∧
      out.bigRelocs =
        (codec 32 (relocXfix imagesize rvamin records 3)
            fun a => out.image (rvamin + a)).2
          ||| (if relocXfix imagesize rvamin records 2 ≠ [] then 4 else 0)
          ||| (if relocXfix imagesize rvamin records 1 ≠ [] then 2 else 0) ∧
      out.warnings =
        ((List.range 16).drop 4).filter (fun t => relocCounts records t ≠ 0) ∧
      (∀ t, 4 ≤ t → t < 16 → (t ∈ out.warnings ↔ relocCounts records t ≠ 0)) := by
  unfold processRelocs32
  rw [if_neg (by simp [hnum])]
  simp only []
  rw [if_neg (by omega)]
  refine ⟨_, rfl, ?_, rfl, rfl, rfl, ?_⟩
  · intro v hv
    have hz : ∀ k, k < 4 →
        zeroRange (patch32 imagebase rvamin image (relocXfix imagesize rvamin records 3))
          dirAddr dirSize (add32 v rvamin + k) =
        patch32 imagebase rvamin image (relocXfix imagesize rvamin records 3)
          (add32 v rvamin + k) := by
      intro k hk
      unfold zeroRange
      rw [if_neg (hdir v hv k hk)]
    show readLe32 (zeroRange _ dirAddr dirSize) _ = _
    unfold readLe32
    have h0 := hz 0 (by omega)
    simp only [Nat.add_zero] at h0
    rw [h0, hz 1 (by omega), hz 2 (by omega), hz 3 (by omega)]
    exact patch32_reads imagebase rvamin _ image hsep v hv
  · intro t h4 h16
    constructor
    · intro ht
      rcases List.mem_filter.mp ht with ⟨_, h⟩
      simpa using h
    · intro hc
      refine List.mem_filter.mpr ⟨?_, by simpa using hc⟩
      have : t ∈ List.range 16 := List.mem_range.mpr h16
      rw [show ((List.range 16).drop 4) =
            [4, 5, 6, 7, 8, 9, 10, 11, 12, 13, 14, 15] by rfl]
      simp only [List.mem_cons, List.not_mem_nil, or_false]
      omega

/-- Concrete evaluation of `processRelocs32_spec`: one type-3 record at
RVA 10 (in-image value 4660, imagebase 4096, rvamin 0) and one type-5
record; the target is rewritten to 564, type 5 is warned about, and
with the trivial codec the emitted stream is empty. -/
theorem processRelocs32_witness :
    ∃ out, processRelocs32 (fun _ _ _ => ([], 0)) false 100 0 4096 50 8
        [(10, 3), (20, 5)]
        (fun a => if a = 10 then 52 else if a = 11 then 18 else 0) = .ok out ∧
      readLe32 out.image 10 = 564 ∧
      out.warnings = [5] ∧
      out.stream = [] := by
  have hx : relocXfix 100 0 [(10, 3), (20, 5)] 3 = [10] := by decide
  obtain ⟨out, he, hpatch, hstream, hbig, hwarn, _⟩ :=
    processRelocs32_spec (fun _ _ _ => ([], 0)) 100 0 4096 50 8 [(10, 3), (20, 5)]
      (fun a => if a = 10 then 52 else if a = 11 then 18 else 0)
      (by decide) (by decide)
      (by rw [hx]; exact List.pairwise_singleton _ _)
      (by
        intro v hv k hk
        rw [hx] at hv
        simp only [List.mem_singleton] at hv
        subst hv
        have hadd : add32 10 0 = 10 := by decide
        omega)
  refine ⟨out, he, ?_, ?_, ?_⟩
  · have h10 := hpatch 10 (by rw [hx]; simp)
    have h2 : readLe32 out.image (add32 10 0) = 564 := by rw [h10]; decide
    simpa [show add32 10 0 = 10 from by decide] using h2
  · rw [hwarn]; decide
  · rw [hstream]
    rw [show relocXfix 100 0 [(10, 3), (20, 5)] 2 = [] from by decide,
        show relocXfix 100 0 [(10, 3), (20, 5)] 1 = [] from by decide]
    simp [relocTail]

theorem relocBucket_filter (imagesize rvamin : Nat) (records : List (Nat × Nat))
    (t : Nat) :
    relocBucket imagesize rvamin (records.filter fun r => r.1 < imagesize) t =
      relocBucket imagesize rvamin records t := by
  unfold relocBucket
  rw [List.filter_filter]
  congr 1
  apply List.filter_congr
  intro r _
  by_cases h1 : r.1 < imagesize <;> by_cases h2 : r.2 = t <;> simp [h1, h2]

theorem relocXfix_filter (imagesize rvamin : Nat) (records : List (Nat × Nat))
    (t : Nat) :
    relocXfix imagesize rvamin (records.filter fun r => r.1 < imagesize) t =
      relocXfix imagesize rvamin records t := by
  unfold relocXfix
  rw [relocBucket_filter]

theorem relocnum_filter_le (p : Nat × Nat → Prop) [DecidablePred p]
    (records : List (Nat × Nat)) :
    relocnum (records.filter fun r => p r) ≤ relocnum records := by
  unfold relocnum
  exact List.Sublist.length_le (List.Sublist.filter _ (List.filter_sublist records))

/-- C10: in both pass-1 relocation preprocessors, records whose RVA is
at least `ih.imagesize` are silently skipped — they land in no type
bucket — so (whenever at least one in-bounds record exists) the emitted
relocation stream, the rewritten image and `big_relocs` are those of the
in-bounds records alone. -/
theorem processRelocs_inbounds_only
    (codec32 codec64 : Nat → List Nat → (Nat → Nat) → List Nat × Nat)
    (imagesize rvamin imagebase dirAddr dirSize : Nat)
    (records : List (Nat × Nat)) (image : Nat → Nat)
    (hin : relocnum (records.filter fun r => r.1 < imagesize) ≠ 0) :
    ((processRelocs64 codec64 false imagesize rvamin imagebase dirAddr dirSize
        records image).stream =
      (processRelocs64 codec64 false imagesize rvamin imagebase dirAddr dirSize
        (records.filter fun r => r.1 < imagesize) image).stream ∧
     (processRelocs64 codec64 false imagesize rvamin imagebase dirAddr dirSize
        records image).image =
      (processRelocs64 codec64 false imagesize rvamin imagebase dirAddr dirSize
        (records.filter fun r => r.1 < imagesize) image).image ∧
     (processRelocs64 codec64 false imagesize rvamin imagebase dirAddr dirSize
        records image).bigRelocs =
      (processRelocs64 codec64 false imagesize rvamin imagebase dirAddr dirSize
        (records.filter fun r => r.1 < imagesize) image).bigRelocs) ∧
    (∀ out2, processRelocs32 codec32 false imagesize rvamin imagebase dirAddr dirSize
        (records.filter fun r => r.1 < imagesize) image = .ok out2 →
      ∃ out1, processRelocs32 codec32 false imagesize rvamin imagebase dirAddr dirSize
          records image = .ok out1 ∧
        out1.stream = out2.stream ∧ out1.image = out2.image ∧
        out1.bigRelocs = out2.bigRelocs) := by
  have hnumfull : relocnum records ≠ 0 := by
    have := relocnum_filter_le (fun r => r.1 < imagesize) records
    omega
  have hxf : ∀ t, relocXfix imagesize rvamin (records.filter fun r => r.1 < imagesize) t =
      relocXfix imagesize rvamin records t := relocXfix_filter imagesize rvamin records
  constructor
  · unfold processRelocs64
    rw [if_neg (by simp [hnumfull]), if_neg (by simp [hin])]
    simp only [hxf]
    exact ⟨trivial, trivial, trivial⟩
  · intro out2 hout2
    unfold processRelocs32 at hout2 ⊢
    rw [if_neg (by simp [hin])] at hout2
    rw [if_neg (by simp [hnumfull])]
    simp only [hxf] at hout2
    by_cases hg : 4 * relocnum (records.filter fun r => r.1 < imagesize) + 8192 <
        (codec32 32 (relocXfix imagesize rvamin records 3) fun a =>
          zeroRange (patch32 imagebase rvamin image (relocXfix imagesize rvamin records 3))
            dirAddr dirSize (rvamin + a)).1.length
        + 4 * (2 + (relocXfix imagesize rvamin records 2).length
                 + (relocXfix imagesize rvamin records 1).length)
    · rw [if_pos hg] at hout2
      cases hout2
    · rw [if_neg hg] at hout2
      have hgf : ¬ (4 * relocnum records + 8192 <
          (codec32 32 (relocXfix imagesize rvamin records 3) fun a =>
            zeroRange (patch32 imagebase rvamin image (relocXfix imagesize rvamin records 3))
              dirAddr dirSize (rvamin + a)).1.length
          + 4 * (2 + (relocXfix imagesize rvamin records 2).length
                   + (relocXfix imagesize rvamin records 1).length)) := by
        have := relocnum_filter_le (fun r => r.1 < imagesize) records
        omega
      rw [if_neg hgf]
      rcases Except.ok.inj hout2 with h
      exact ⟨_, rfl, by rw [← h], by rw [← h], by rw [← h]⟩

/-- Concrete evaluation of `processRelocs_inbounds_only`: a type-3
record at RVA 200 with `imagesize = 100` contributes nothing — the
64-bit outputs on `[(10, 10), (200, 10)]` and on the in-bounds
`[(10, 10)]` agree. -/
theorem processRelocs_inbounds_witness :
    (processRelocs64 (fun _ rel _ => (rel, 0)) false 100 0 4096 50 8
        [(10, 10), (200, 10)] (fun _ => 0)).stream =
      (processRelocs64 (fun _ rel _ => (rel, 0)) false 100 0 4096 50 8
        [(10, 10)] (fun _ => 0)).stream ∧
    (processRelocs64 (fun _ rel _ => (rel, 0)) false 100 0 4096 50 8
        [(10, 10), (200, 10)] (fun _ => 0)).stream = [10] := by
  have h := (processRelocs_inbounds_only (fun _ rel _ => (rel, 0))
    (fun _ rel _ => (rel, 0)) 100 0 4096 50 8 [(10, 10), (200, 10)]
    (fun _ => 0) (by decide)).1
  have hf : ([(10, 10), (200, 10)].filter fun r : Nat × Nat => r.1 < 100) =
      [(10, 10)] := by decide
  refine ⟨?_, ?_⟩
  · rw [h.1, hf]
  · rw [h.1, hf]
    decide

/-! ### Resource keep-pattern matching (the file-static `match`)

The pattern string and resource names are byte lists; a UTF-16 resource
name is a list of its code units (`none` when the resource has a
numeric id).  The C string is the list content; one terminating NUL is
implied at the end. -/

/-- Bytes accepted as whitespace by `atoi`. -/
def isSpaceByte (b : Nat) : Bool := b = 32 ∨ (9 ≤ b ∧ b ≤ 13)

/-- ASCII decimal digits. -/
def isDigitByte (b : Nat) : Bool := 48 ≤ b ∧ b ≤ 57

/-- The digit-accumulation loop of `atoi`. -/
def atoiLoop : List Nat → Nat → Nat
  | [], acc => acc
  | c :: rest, acc => if isDigitByte c then atoiLoop rest (acc * 10 + (c - 48)) else acc

/-- The optional sign followed by digits; `45` is the minus byte and
`43` the plus byte. -/
def atoiSigned : List Nat → Int
  | [] => 0
  | d :: rest =>
    if d = 45 then -(atoiLoop rest 0 : Int)
    else if d = 43 then (atoiLoop rest 0 : Int)
    else (atoiLoop (d :: rest) 0 : Int)

/-- C `atoi`: skip whitespace, optional sign, then digits. -/
def atoi (s : List Nat) : Int := atoiSigned (s.dropWhile isSpaceByte)

/-- The `(unsigned)` cast applied to `atoi`'s result. -/
def toU32 (i : Int) : Nat := (i % (U32 : Int)).toNat

/-- The character loop of `Helper::match`: compare the low byte of each
UTF-16 unit with the pattern byte, then require a clause terminator
(NUL, `,` or `/`) right after the name. -/
def helperGo : List Nat → List Nat → Bool
  | [], rest =>
    match rest with
    | [] => true
    | c :: _ => c = 44 ∨ c = 47
  | u :: us, [] => if u % 256 ≠ 0 then false else helperGo us []
  | u :: us, c :: cs => if u % 256 ≠ c then false else helperGo us cs

/-- `Helper::match(num, unistr, mkeep)`: numeric comparison through
`atoi` when the resource id is numeric, otherwise the byte loop. -/
def helperMatch (num : Nat) (unistr : Option (List Nat)) (mkeep : List Nat) : Bool :=
  match unistr with
  | none => toU32 (atoi mkeep) = num
  | some units => helperGo units mkeep

/-- Index of the first occurrence of byte `c` (C `strchr`). -/
def charIdx (c : Nat) : List Nat → Option Nat
  | [] => none
  | b :: rest => if b = c then some 0 else (charIdx c rest).map (· + 1)

theorem charIdx_lt {c : Nat} : ∀ {s : List Nat} {j : Nat},
    charIdx c s = some j → j < s.length
  | [], _, h => by cases h
  | b :: rest, j, h => by
    by_cases hb : b = c
    · simp [charIdx, hb] at h
      simp [List.length_cons]
      omega
    · simp [charIdx, hb] at h
      rcases h with ⟨i, hi, hij⟩
      have := charIdx_lt hi
      simp [List.length_cons]
      omega

/-- One iteration's hit test of the file-static `match` loop: the type
part (everything up to the first `/` when that `/` precedes the next
`,`) must match, and then the name part after the `/` must match. -/
def clauseHit0 (itype : Nat) (ntype : Option (List Nat)) (iname : Nat)
    (nname : Option (List Nat)) (keep : List Nat) : Bool :=
  if helperMatch itype ntype keep then
    match charIdx 47 keep with
    | none => true
    | some d1 =>
      match charIdx 44 keep with
      | some d2 =>
        if d2 < d1 then true
        else helperMatch iname nname (keep.drop (d1 + 1))
      | none => helperMatch iname nname (keep.drop (d1 + 1))
  else false

/-- The file-static `match(itype, ntype, iname, nname, keep)` loop:
try the clause at the head of `keep` — its type part must match, and
when the first `/` belongs to this clause (no `,` before it) the name
part must match too — then continue after the next `,`. -/
def codeMatch (itype : Nat) (ntype : Option (List Nat)) (iname : Nat)
    (nname : Option (List Nat)) (keep : List Nat) : Bool :=
  if clauseHit0 itype ntype iname nname keep then true
  else
    match h2 : charIdx 44 keep with
    | none => false
    | some d2 => codeMatch itype ntype iname nname (keep.drop (d2 + 1))
termination_by keep.length
decreasing_by
  have := charIdx_lt h2
  simp [List.length_drop]
  omega

/-- The always-applied pattern of `processResources`:
`"TYPELIB,REGISTRY,16"`. -/
def typelibRegistry16 : List Nat :=
  [84, 89, 80, 69, 76, 73, 66, 44, 82, 69, 71, 73, 83, 84, 82, 89, 44, 49, 54]

/-- The keep-filter applications of `PeFile::processResources`
(pefile.cpp:1970-1978): after the per-type policy decided `base`, a hit
on the kept-icons pattern, on `"TYPELIB,REGISTRY,16"` or on the user's
`keep_resource` pattern each clears `do_compress`. -/
def doCompressFinal (base : Bool) (keepIcons : Option (List Nat))
    (keepResource : List Nat) (itype : Nat) (ntype : Option (List Nat))
    (iname : Nat) (nname : Option (List Nat)) : Bool :=
  let d1 :=
    match keepIcons with
    | some ki => base && !(codeMatch itype ntype iname nname ki)
    | none => base
  let d2 := d1 && !(codeMatch itype ntype iname nname typelibRegistry16)
  d2 && !(codeMatch itype ntype iname nname keepResource)

/-! The specification reading of the claim: `match` is the disjunction
over the comma-separated clauses of `keep`. -/

/-- Split at the commas (the claim's "comma-separated clauses"). -/
def splitComma : List Nat → List (List Nat)
  | [] => [[]]
  | c :: rest =>
    if c = 44 then [] :: splitComma rest
    else
      match splitComma rest with
      | [] => [[c]]
      | cl :: cls => (c :: cl) :: cls

/-- Modelled from the spec: one part (type or name) matches when a
numeric part compares by value against the id and a string part equals
the UTF-16 name's low bytes. -/
def specTypeMatch (id : Nat) (uname : Option (List Nat)) (part : List Nat) : Bool :=
  match uname with
  | none => toU32 (atoi part) = id
  | some units => units.map (· % 256) = part

/-- Modelled from the spec: a clause matches when its type part matches
and, when a `/name` part is present, the name part matches too. -/
def specClauseMatch (itype : Nat) (ntype : Option (List Nat)) (iname : Nat)
    (nname : Option (List Nat)) (clause : List Nat) : Bool :=
  match charIdx 47 clause with
  | none => specTypeMatch itype ntype clause
  | some d =>
    specTypeMatch itype ntype (clause.take d) &&
      specTypeMatch iname nname (clause.drop (d + 1))

/-- Modelled from the spec: the keep filter is the disjunction over the
comma-separated clauses. -/
def specMatch (itype : Nat) (ntype : Option (List Nat)) (iname : Nat)
    (nname : Option (List Nat)) (keep : List Nat) : Bool :=
  (splitComma keep).any (specClauseMatch itype ntype iname nname)

/-- A UTF-16 name whose low bytes collide with no clause separator. -/
def goodUnits : Option (List Nat) → Prop
  | none => True
  | some units => ∀ u ∈ units, u % 256 ≠ 0 ∧ u % 256 ≠ 44 ∧ u % 256 ≠ 47

instance : ∀ uo, Decidable (goodUnits uo)
  | none => isTrue trivial
  | some units => inferInstanceAs (Decidable (∀ u ∈ units, _ ∧ _ ∧ _))

theorem charIdx_none_iff {c : Nat} : ∀ {s : List Nat}, charIdx c s = none ↔ c ∉ s
  | [] => by simp [charIdx]
  | b :: rest => by
    by_cases hb : b = c
    · simp [charIdx, hb]
    · simp [charIdx, hb, charIdx_none_iff (s := rest)]
      exact fun _ he => hb he.symm

theorem charIdx_take {c : Nat} : ∀ {s : List Nat} {j : Nat},
    charIdx c s = some j → c ∉ s.take j
  | [], _, h => by cases h
  | b :: rest, j, h => by
    by_cases hb : b = c
    · simp [charIdx, hb] at h
      subst h
      simp
    · simp [charIdx, hb] at h
      rcases h with ⟨i, hi, hij⟩
      subst hij
      simp only [List.take_succ_cons, List.mem_cons, not_or]
      exact ⟨fun he => hb he.symm, charIdx_take hi⟩

theorem charIdx_drop {c : Nat} : ∀ {s : List Nat} {j : Nat},
    charIdx c s = some j → s.drop j = c :: s.drop (j + 1)
  | [], _, h => by cases h
  | b :: rest, j, h => by
    by_cases hb : b = c
    · simp [charIdx, hb] at h
      subst h
      simp [hb]
    · simp [charIdx, hb] at h
      rcases h with ⟨i, hi, hij⟩
      subst hij
      simpa using charIdx_drop hi

theorem charIdx_append {c : Nat} : ∀ {t : List Nat} (u : List Nat), c ∉ t →
    charIdx c (t ++ c :: u) = some t.length
  | [], u, _ => by simp [charIdx]
  | b :: t2, u, h => by
    simp only [List.mem_cons, not_or] at h
    have hb : ¬ b = c := fun he => h.1 he.symm
    show (if b = c then some 0 else (charIdx c (t2 ++ c :: u)).map (· + 1)) =
      some (b :: t2).length
    rw [if_neg hb, charIdx_append u h.2]
    rfl

theorem atoiLoop_append_stop {c : Nat} (hc : ¬ isDigitByte c = true) :
    ∀ (t u : List Nat) (acc : Nat), atoiLoop (t ++ c :: u) acc = atoiLoop t acc
  | [], u, acc => by simp [atoiLoop, hc]
  | b :: t2, u, acc => by
    by_cases hb : isDigitByte b
    · simp only [List.cons_append, atoiLoop, if_pos hb]
      exact atoiLoop_append_stop hc t2 u _
    · simp [atoiLoop, hb]

theorem atoi_append_stop {c : Nat} (hc : c = 44 ∨ c = 47) (t u : List Nat) :
    atoi (t ++ c :: u) = atoi t := by
  have hcs : ¬ isSpaceByte c = true := by rcases hc with h | h <;> subst h <;> decide
  have hcd : ¬ isDigitByte c = true := by rcases hc with h | h <;> subst h <;> decide
  have hc45 : c ≠ 45 := by omega
  have hc43 : c ≠ 43 := by omega
  have hstop : ∀ (l : List Nat) (acc : Nat), atoiLoop (l ++ c :: u) acc = atoiLoop l acc :=
    fun l acc => atoiLoop_append_stop hcd l u acc
  unfold atoi
  rw [List.dropWhile_append]
  cases hd : t.dropWhile isSpaceByte with
  | nil =>
    simp only [List.isEmpty_nil, if_pos rfl]
    rw [List.dropWhile_cons_of_neg hcs]
    simp [atoiSigned, if_neg hc45, if_neg hc43, atoiLoop, hcd]
  | cons d rest =>
    simp only [List.isEmpty_cons, Bool.false_eq_true, if_false, List.cons_append]
    by_cases h45 : d = 45
    · subst h45
      simp [atoiSigned, hstop]
    · by_cases h43 : d = 43
      · subst h43
        simp [atoiSigned, hstop]
      · simp only [atoiSigned, if_neg h45, if_neg h43]
        rw [show (d :: (rest ++ c :: u) : List Nat) = (d :: rest) ++ c :: u from rfl, hstop]

theorem boolExt {a b : Bool} (h : a = true ↔ b = true) : a = b := by
  cases a <;> cases b <;> simp_all

theorem helperGo_part {rest : List Nat}
    (hr : rest = [] ∨ ∃ c u2, rest = c :: u2 ∧ (c = 44 ∨ c = 47)) :
    ∀ (units t : List Nat),
      (∀ u ∈ units, u % 256 ≠ 0 ∧ u % 256 ≠ 44 ∧ u % 256 ≠ 47) →
      44 ∉ t → 47 ∉ t →
      (helperGo units (t ++ rest) = true ↔ units.map (· % 256) = t)
  | [], [], _, _, _ => by
    rcases hr with h | ⟨c, u2, he, hc⟩
    · subst h; simp [helperGo]
    · subst he
      simp only [List.nil_append, helperGo, List.map_nil, decide_eq_true_iff]
      simp [hc]
  | [], b :: t2, _, h44, h47 => by
    simp only [List.mem_cons, not_or] at h44 h47
    simp only [List.cons_append, helperGo, List.map_nil, decide_eq_true_iff]
    constructor
    · intro h
      rcases h with h | h
      · exact absurd h.symm h44.1
      · exact absurd h.symm h47.1
    · intro h; cases h
  | u :: us, [], hg, _, _ => by
    have hu := hg u (List.mem_cons_self u us)
    rcases hr with h | ⟨c, u2, he, hc⟩
    · subst h
      simp only [List.nil_append, helperGo]
      rw [if_pos]
      · simp
      · exact hu.1
    · subst he
      simp only [List.nil_append, helperGo]
      rw [if_pos]
      · simp
      · rcases hc with h | h <;> subst h
        · exact hu.2.1
        · exact hu.2.2
  | u :: us, b :: t2, hg, h44, h47 => by
    have hu := hg u (List.mem_cons_self u us)
    have hg2 : ∀ v ∈ us, v % 256 ≠ 0 ∧ v % 256 ≠ 44 ∧ v % 256 ≠ 47 :=
      fun v hv => hg v (List.mem_cons_of_mem u hv)
    simp only [List.mem_cons, not_or] at h44 h47
    simp only [List.cons_append, helperGo, List.map_cons, List.cons_eq_cons]
    by_cases hb : u % 256 = b
    · rw [if_neg (by simp [hb])]
      simp only [List.append_eq]
      rw [helperGo_part hr us t2 hg2 h44.2 h47.2]
      simp [hb]
    · rw [if_pos (by simp [hb])]
      simp [hb]

theorem helperMatch_part {rest : List Nat}
    (hr : rest = [] ∨ ∃ c u2, rest = c :: u2 ∧ (c = 44 ∨ c = 47))
    (num : Nat) (uo : Option (List Nat)) (hg : goodUnits uo)
    (t : List Nat) (ht44 : 44 ∉ t) (ht47 : 47 ∉ t) :
    helperMatch num uo (t ++ rest) = specTypeMatch num uo t := by
  cases uo with
  | none =>
    simp only [helperMatch, specTypeMatch]
    rcases hr with h | ⟨c, u2, he, hc⟩
    · subst h; rw [List.append_nil]
    · subst he; rw [atoi_append_stop hc]
  | some units =>
    simp only [helperMatch, specTypeMatch]
    refine boolExt ?_
    rw [helperGo_part hr units t hg ht44 ht47, decide_eq_true_iff]

theorem splitComma_no_comma : ∀ {t : List Nat}, 44 ∉ t → splitComma t = [t]
  | [], _ => rfl
  | b :: t2, h => by
    simp only [List.mem_cons, not_or] at h
    have hb : ¬ b = 44 := fun he => h.1 (Eq.symm he)
    rw [splitComma.eq_def]
    simp only [if_neg hb]
    rw [splitComma_no_comma h.2]

theorem splitComma_append : ∀ (t u : List Nat), 44 ∉ t →
    splitComma (t ++ 44 :: u) = t :: splitComma u
  | [], u, _ => by simp [splitComma]
  | b :: t2, u, h => by
    simp only [List.mem_cons, not_or] at h
    have hb : ¬ b = 44 := fun he => h.1 (Eq.symm he)
    simp only [List.cons_append]
    rw [splitComma.eq_def]
    simp only [if_neg hb]
    rw [splitComma_append t2 u h.2]

theorem charIdx_take_of_lt {c : Nat} : ∀ {s : List Nat} {j k : Nat},
    charIdx c s = some j → j < k → charIdx c (s.take k) = some j
  | [], _, _, h, _ => by cases h
  | b :: rest, j, k, h, hjk => by
    by_cases hb : b = c
    · simp [charIdx, hb] at h
      subst h
      cases k with
      | zero => omega
      | succ k2 => simp [charIdx, hb]
    · simp [charIdx, hb] at h
      rcases h with ⟨i, hi, hij⟩
      subst hij
      cases k with
      | zero => omega
      | succ k2 =>
        simp only [List.take_succ_cons, charIdx, if_neg hb]
        rw [charIdx_take_of_lt hi (by omega)]
        rfl

theorem charIdx_split {c : Nat} {s : List Nat} {j : Nat} (h : charIdx c s = some j) :
    s = s.take j ++ c :: s.drop (j + 1) := by
  conv_lhs => rw [← List.take_append_drop j s]
  rw [charIdx_drop h]

theorem drop_eq_take_drop {s : List Nat} {j k : Nat} (hjk : j ≤ k) (hk : k ≤ s.length) :
    s.drop j = (s.take k).drop j ++ s.drop k := by
  conv_lhs => rw [← List.take_append_drop k s]
  rw [List.drop_append_of_le_length]
  simp only [List.length_take]
  omega

theorem count47_tail {a mid : List Nat} (h : (a ++ 47 :: mid).count 47 ≤ 1) :
    47 ∉ mid := by
  rw [← List.count_eq_zero]
  have := List.count_append 47 a (47 :: mid)
  simp only [List.count_cons_self] at this
  omega

theorem mem_of_take {l : List Nat} {n a : Nat} (h : a ∈ l.take n) : a ∈ l := by
  rw [← List.take_append_drop n l]
  exact List.mem_append_left _ h

theorem mem_of_drop {l : List Nat} {n a : Nat} (h : a ∈ l.drop n) : a ∈ l := by
  rw [← List.take_append_drop n l]
  exact List.mem_append_right _ h

theorem clauseHit0_no_comma {itype : Nat} {ntype : Option (List Nat)} {iname : Nat}
    {nname : Option (List Nat)} (hgT : goodUnits ntype) (hgN : goodUnits nname)
    {keep : List Nat} (h44 : charIdx 44 keep = none) (hct : keep.count 47 ≤ 1) :
    clauseHit0 itype ntype iname nname keep =
      specClauseMatch itype ntype iname nname keep := by
  have h44m : 44 ∉ keep := charIdx_none_iff.mp h44
  unfold clauseHit0 specClauseMatch
  cases h47 : charIdx 47 keep with
  | none =>
    have h47m : 47 ∉ keep := charIdx_none_iff.mp h47
    have hmt : helperMatch itype ntype keep = specTypeMatch itype ntype keep := by
      have h := helperMatch_part (Or.inl rfl) itype ntype hgT keep h44m h47m
      rwa [List.append_nil] at h
    rw [hmt]
    cases specTypeMatch itype ntype keep <;> simp
  | some d1 =>
    have hsplit : keep = keep.take d1 ++ 47 :: keep.drop (d1 + 1) := charIdx_split h47
    have ht47 : 47 ∉ keep.take d1 := charIdx_take h47
    have ht44 : 44 ∉ keep.take d1 := fun hm => h44m (mem_of_take hm)
    have hd44 : 44 ∉ keep.drop (d1 + 1) := fun hm => h44m (mem_of_drop hm)
    have hd47 : 47 ∉ keep.drop (d1 + 1) := by
      refine count47_tail (a := keep.take d1) ?_
      rw [← hsplit]
      exact hct
    have hmt : helperMatch itype ntype keep = specTypeMatch itype ntype (keep.take d1) := by
      conv_lhs => rw [hsplit]
      exact helperMatch_part (Or.inr ⟨47, _, rfl, Or.inr rfl⟩) itype ntype hgT _ ht44 ht47
    have hmn : helperMatch iname nname (keep.drop (d1 + 1)) =
        specTypeMatch iname nname (keep.drop (d1 + 1)) := by
      have h := helperMatch_part (Or.inl rfl) iname nname hgN _ hd44 hd47
      rwa [List.append_nil] at h
    rw [h44]
    simp only []
    rw [hmt, hmn]
    cases specTypeMatch itype ntype (keep.take d1) <;>
      cases specTypeMatch iname nname (keep.drop (d1 + 1)) <;> simp

theorem clauseHit0_comma {itype : Nat} {ntype : Option (List Nat)} {iname : Nat}
    {nname : Option (List Nat)} (hgT : goodUnits ntype) (hgN : goodUnits nname)
    {keep : List Nat} {d2 : Nat} (h44 : charIdx 44 keep = some d2)
    (hct : (keep.take d2).count 47 ≤ 1) :
    clauseHit0 itype ntype iname nname keep =
      specClauseMatch itype ntype iname nname (keep.take d2) := by
  have hsplit : keep = keep.take d2 ++ 44 :: keep.drop (d2 + 1) := charIdx_split h44
  have ht44 : 44 ∉ keep.take d2 := charIdx_take h44
  have hd2len : d2 < keep.length := charIdx_lt h44
  unfold clauseHit0 specClauseMatch
  cases h47 : charIdx 47 keep with
  | none =>
    have h47m : 47 ∉ keep := charIdx_none_iff.mp h47
    have ht47 : 47 ∉ keep.take d2 := fun hm => h47m (mem_of_take hm)
    have hspec : charIdx 47 (keep.take d2) = none := charIdx_none_iff.mpr ht47
    rw [hspec]
    have hmt : helperMatch itype ntype keep = specTypeMatch itype ntype (keep.take d2) := by
      conv_lhs => rw [hsplit]
      exact helperMatch_part (Or.inr ⟨44, _, rfl, Or.inl rfl⟩) itype ntype hgT _ ht44 ht47
    rw [hmt]
    cases specTypeMatch itype ntype (keep.take d2) <;> simp
  | some d1 =>
    rw [h44]
    simp only []
    rcases Nat.lt_trichotomy d2 d1 with hlt | heq | hgt2
    · have htt : keep.take d2 = (keep.take d1).take d2 := by
        rw [List.take_take, Nat.min_eq_left (Nat.le_of_lt hlt)]
      have ht47 : 47 ∉ keep.take d2 := by
        rw [htt]
        exact fun hm => charIdx_take h47 (mem_of_take hm)
      have hspec : charIdx 47 (keep.take d2) = none := charIdx_none_iff.mpr ht47
      rw [hspec]
      simp only []
      rw [if_pos hlt]
      have hmt : helperMatch itype ntype keep = specTypeMatch itype ntype (keep.take d2) := by
        conv_lhs => rw [hsplit]
        exact helperMatch_part (Or.inr ⟨44, _, rfl, Or.inl rfl⟩) itype ntype hgT _ ht44 ht47
      rw [hmt]
      cases specTypeMatch itype ntype (keep.take d2) <;> simp
    · exfalso
      have e1 := charIdx_drop h44
      have e2 := charIdx_drop h47
      rw [heq] at e1
      rw [e1] at e2
      simp at e2
    · have hc47t : charIdx 47 (keep.take d2) = some d1 := charIdx_take_of_lt h47 hgt2
      rw [hc47t]
      simp only []
      rw [if_neg (by omega : ¬ d2 < d1)]
      have htt : (keep.take d2).take d1 = keep.take d1 := by
        rw [List.take_take, Nat.min_eq_left (Nat.le_of_lt hgt2)]
      have ht44a : 44 ∉ keep.take d1 := by
        rw [← htt]
        exact fun hm => ht44 (mem_of_take hm)
      have ht47a : 47 ∉ keep.take d1 := charIdx_take h47
      have hmt : helperMatch itype ntype keep = specTypeMatch itype ntype (keep.take d1) := by
        conv_lhs => rw [charIdx_split h47]
        exact helperMatch_part (Or.inr ⟨47, _, rfl, Or.inr rfl⟩) itype ntype hgT _ ht44a ht47a
      have hdropsplit : keep.drop (d1 + 1) =
          (keep.take d2).drop (d1 + 1) ++ 44 :: keep.drop (d2 + 1) := by
        rw [drop_eq_take_drop (by omega : d1 + 1 ≤ d2) (Nat.le_of_lt hd2len),
          charIdx_drop h44]
      have hm44 : 44 ∉ (keep.take d2).drop (d1 + 1) := fun hm => ht44 (mem_of_drop hm)
      have hm47 : 47 ∉ (keep.take d2).drop (d1 + 1) := by
        refine count47_tail (a := (keep.take d2).take d1) ?_
        rw [← charIdx_split hc47t]
        exact hct
      have hmn : helperMatch iname nname (keep.drop (d1 + 1)) =
          specTypeMatch iname nname ((keep.take d2).drop (d1 + 1)) := by
        conv_lhs => rw [hdropsplit]
        exact helperMatch_part (Or.inr ⟨44, _, rfl, Or.inl rfl⟩) iname nname hgN _ hm44 hm47
      rw [hmt, hmn, htt]
      cases specTypeMatch itype ntype (keep.take d1) <;>
        cases specTypeMatch iname nname ((keep.take d2).drop (d1 + 1)) <;> simp

theorem codeMatch_eq_specMatch (itype : Nat) (ntype : Option (List Nat)) (iname : Nat)
    (nname : Option (List Nat)) (hgT : goodUnits ntype) (hgN : goodUnits nname) :
    ∀ (n : Nat) (keep : List Nat), keep.length ≤ n →
      (∀ clause ∈ splitComma keep, clause.count 47 ≤ 1) →
      codeMatch itype ntype iname nname keep = specMatch itype ntype iname nname keep := by
  intro n
  induction n with
  | zero =>
    intro keep hlen hcl
    have hnil : keep = [] := List.length_eq_zero.mp (Nat.le_zero.mp hlen)
    subst hnil
    rw [codeMatch]
    have h44 : charIdx 44 ([] : List Nat) = none := rfl
    have hone : splitComma ([] : List Nat) = [[]] := rfl
    have hct : ([] : List Nat).count 47 ≤ 1 := by simp
    rw [clauseHit0_no_comma hgT hgN h44 hct]
    simp only [specMatch, hone, List.any_cons, List.any_nil, Bool.or_false]
    cases specClauseMatch itype ntype iname nname ([] : List Nat) <;> simp [charIdx]
  | succ n ih =>
    intro keep hlen hcl
    rw [codeMatch]
    cases h44 : charIdx 44 keep with
    | none =>
      have hone : splitComma keep = [keep] := splitComma_no_comma (charIdx_none_iff.mp h44)
      have hct : keep.count 47 ≤ 1 :=
        hcl keep (by rw [hone]; exact List.mem_singleton_self keep)
      rw [clauseHit0_no_comma hgT hgN h44 hct]
      simp only [specMatch, hone, List.any_cons, List.any_nil, Bool.or_false]
      cases specClauseMatch itype ntype iname nname keep <;> simp
    | some d2 =>
      have hsplit : keep = keep.take d2 ++ 44 :: keep.drop (d2 + 1) := charIdx_split h44
      have ht44 : 44 ∉ keep.take d2 := charIdx_take h44
      have hsp : splitComma keep = keep.take d2 :: splitComma (keep.drop (d2 + 1)) := by
        conv_lhs => rw [hsplit]
        exact splitComma_append _ _ ht44
      have hct : (keep.take d2).count 47 ≤ 1 :=
        hcl _ (by rw [hsp]; exact List.mem_cons_self _ _)
      have hcl2 : ∀ clause ∈ splitComma (keep.drop (d2 + 1)), clause.count 47 ≤ 1 := by
        intro cl hm
        refine hcl cl ?_
        rw [hsp]
        exact List.mem_cons_of_mem _ hm
      have hlen2 : (keep.drop (d2 + 1)).length ≤ n := by
        have hd := charIdx_lt h44
        simp only [List.length_drop]
        omega
      rw [clauseHit0_comma hgT hgN h44 hct]
      simp only []
      rw [ih _ hlen2 hcl2]
      simp only [specMatch, hsp, List.any_cons]
      cases specClauseMatch itype ntype iname nname (keep.take d2) <;> simp

/-- C9: the resource keep-filter `match(itype, ntype, iname, nname, keep)`
is the disjunction over the comma-separated clauses of `keep` — a numeric
part compares `atoi`'s value against the resource id, a string part
compares the given bytes against the UTF-16 name's characters
byte-for-byte — and the classification in `processResources` always
applies the pattern "TYPELIB,REGISTRY,16" in addition to the user's
keep-resource pattern, so a leaf matching either is never compressed. -/
theorem resource_match_spec (itype : Nat) (ntype : Option (List Nat)) (iname : Nat)
    (nname : Option (List Nat)) (hgT : goodUnits ntype) (hgN : goodUnits nname) :
    (∀ keep : List Nat, (0 : Nat) ∉ keep →
        (∀ clause ∈ splitComma keep, clause.count 47 ≤ 1) →
        codeMatch itype ntype iname nname keep = specMatch itype ntype iname nname keep) ∧
    (∀ (base : Bool) (keepIcons : Option (List Nat)) (keepResource : List Nat),
        codeMatch itype ntype iname nname typelibRegistry16 = true ∨
          codeMatch itype ntype iname nname keepResource = true →
        doCompressFinal base keepIcons keepResource itype ntype iname nname = false) := by
  constructor
  · intro keep _ hcl
    exact codeMatch_eq_specMatch itype ntype iname nname hgT hgN keep.length keep le_rfl hcl
  · intro base keepIcons keepResource h
    rcases h with h | h <;>
      cases keepIcons <;> cases base <;> simp [doCompressFinal, h]

/-- The C9 theorem at a concrete input: a resource of type named
"TYPELIB" (UTF-16 units) hits the always-applied pattern, the
clause-wise reading agrees, and the leaf is not compressed. -/
theorem resource_match_spec_witness :
    goodUnits (some [84, 89, 80, 69, 76, 73, 66]) ∧
    goodUnits (none : Option (List Nat)) ∧
    ((0 : Nat) ∉ typelibRegistry16) ∧
    (∀ clause ∈ splitComma typelibRegistry16, clause.count 47 ≤ 1) ∧
    codeMatch 0 (some [84, 89, 80, 69, 76, 73, 66]) 7 none typelibRegistry16 = true ∧
    doCompressFinal true none [] 0 (some [84, 89, 80, 69, 76, 73, 66]) 7 none = false := by
  have hspec := resource_match_spec 0 (some [84, 89, 80, 69, 76, 73, 66]) 7 none
    (by decide) trivial
  have hcm : codeMatch 0 (some [84, 89, 80, 69, 76, 73, 66]) 7 none typelibRegistry16 =
      true := by
    rw [hspec.1 typelibRegistry16 (by decide) (by decide)]
    decide
  exact ⟨by decide, trivial, by decide, by decide, hcm, hspec.2 true none [] (Or.inl hcm)⟩

end UpxPe
